import Mathlib

/-!
Verification of the caldata iCalendar/vCard parser, validator and emitter.

The Rust sources are shallowly embedded: each Lean definition mirrors one
Rust function.  Machine strings are modelled as `String`/`List Char`,
instants (`DateTime<Utc>`) as `Int` (UTC timestamps), and fallible Rust
functions as `Except`/`Option`.  Line numbers carried inside parser errors
are dropped from the error payloads (they do not affect any claim).
Rust's `str::to_uppercase` is modelled on the ASCII range, which covers
every name the format's grammar produces.
-/

/-- Delimiter between a property name / parameter and the next parameter,
`PARAM_DELIMITER` in `src/lib.rs`. -/
def PARAM_DELIMITER : Char := ';'

/-- Delimiter before the property value, `VALUE_DELIMITER` in `src/lib.rs`. -/
def VALUE_DELIMITER : Char := ':'

/-- Delimiter between a parameter key and its value, `PARAM_NAME_DELIMITER`. -/
def PARAM_NAME_DELIMITER : Char := '='

/-- Delimiter between two values of one parameter, `PARAM_VALUE_DELIMITER`. -/
def PARAM_VALUE_DELIMITER : Char := ','

/-- ASCII uppercasing of one character, modelling `str::to_uppercase`
(restricted to ASCII, which is all the grammar needs). -/
def upperChar (c : Char) : Char :=
  if 97 ≤ c.toNat ∧ c.toNat ≤ 122 then Char.ofNat (c.toNat - 32) else c

/-- Uppercase a character list. -/
def upperL (l : List Char) : List Char := l.map upperChar

/-- Uppercase a string, modelling `str::to_uppercase` on ASCII input. -/
def upperS (l : List Char) : String := String.mk (upperL l)

theorem toNat_ofNat_valid (n : Nat) (h1 : 65 ≤ n) (h2 : n ≤ 90) :
    (Char.ofNat n).toNat = n := by
  unfold Char.ofNat
  have hv : n.isValidChar := Or.inl (by omega)
  rw [dif_pos hv]
  show (UInt32.ofNatCore n _).toNat = n
  simp [UInt32.ofNatCore, UInt32.toNat]

theorem upperChar_idem (c : Char) : upperChar (upperChar c) = upperChar c := by
  unfold upperChar
  by_cases h : 97 ≤ c.toNat ∧ c.toNat ≤ 122
  · rw [if_pos h]
    have := toNat_ofNat_valid (c.toNat - 32) (by omega) (by omega)
    rw [if_neg (by omega)]
  · rw [if_neg h, if_neg h]

theorem upperL_idem (l : List Char) : upperL (upperL l) = upperL l := by
  simp [upperL, List.map_map, Function.comp_def, upperChar_idem]

/-- Errors of `ContentLineParser::parse` (`src/parser/content_line.rs`,
`ContentLineError`); the source line numbers carried by the Rust enum are
dropped. -/
inductive ContentLineError where
  | MissingName
  | MissingClosingQuote
  | MissingDelimiter (c : Char)
  | MissingContentAfter (c : Char)
  | MissingParamKey
  | MissingValue
deriving DecidableEq

/-- A parsed content line (`ContentLine` in `src/parser/content_line.rs`):
uppercase name, ordered parameter list (uppercase keys), optional raw value.
`ContentLineParams` is inlined as the bare association list it wraps. -/
structure ContentLine where
  name : String
  params : List (String × List String)
  value : Option String
deriving DecidableEq

instance : Inhabited ContentLine := ⟨⟨"", [], none⟩⟩

/-- `ContentLineParams::get_param`: first value of the first parameter with
the given key. -/
def getParam (params : List (String × List String)) (name : String) : Option String :=
  (params.find? (fun kv => kv.1 == name)).bind (fun kv => kv.2.head?)

/-- `ContentLineParams::replace_param`: replace the first parameter with the
given key by a single-valued one (later ones untouched), or append it. -/
def replaceParam (params : List (String × List String)) (name value : String) :
    List (String × List String)  :=
  match params with
  | [] => [(name, [value])]
  | kv :: rest =>
    if kv.1 = name then (name, [value]) :: rest else kv :: replaceParam rest name value

/-- `ContentLineParams::remove`: drop every parameter with the given key. -/
def removeParam (params : List (String × List String)) (name : String) :
    List (String × List String) :=
  params.filter (fun kv => ¬ kv.1 = name)

/-- Split a character list at the first character satisfying `p`; returns the
part before and the rest starting with the found character.  Models
`str::find` followed by `str::split_at` in `ContentLineParser::parse`. -/
def splitAtFirst (p : Char → Bool) : List Char → Option (List Char × List Char)
  | [] => none
  | c :: cs =>
    if p c then some ([], c :: cs)
    else match splitAtFirst p cs with
      | none => none
      | some (a, b) => some (c :: a, b)

/-- Split at the first occurrence of `d`, dropping it; models
`str::split_once`. -/
def splitOnceL (d : Char) : List Char → Option (List Char × List Char)
  | [] => none
  | c :: cs =>
    if c = d then some ([], cs)
    else match splitOnceL d cs with
      | none => none
      | some (a, b) => some (c :: a, b)

theorem splitAtFirst_append {p : Char → Bool} {l a b : List Char}
    (h : splitAtFirst p l = some (a, b)) : l = a ++ b := by
  induction l generalizing a b with
  | nil => simp [splitAtFirst] at h
  | cons c cs ih =>
    by_cases hc : p c
    · simp [splitAtFirst, hc] at h
      obtain ⟨rfl, rfl⟩ := h
      simp
    · simp only [splitAtFirst, if_neg hc] at h
      cases hsub : splitAtFirst p cs with
      | none => rw [hsub] at h; simp at h
      | some ab =>
        obtain ⟨a', b'⟩ := ab
        rw [hsub] at h
        simp at h
        obtain ⟨rfl, rfl⟩ := h
        simp [ih hsub]

theorem splitAtFirst_not_before {p : Char → Bool} {l a b : List Char}
    (h : splitAtFirst p l = some (a, b)) : ∀ c ∈ a, ¬ p c := by
  induction l generalizing a b with
  | nil => simp [splitAtFirst] at h
  | cons c cs ih =>
    by_cases hc : p c
    · simp [splitAtFirst, hc] at h
      obtain ⟨rfl, rfl⟩ := h
      simp
    · simp only [splitAtFirst, if_neg hc] at h
      cases hsub : splitAtFirst p cs with
      | none => rw [hsub] at h; simp at h
      | some ab =>
        obtain ⟨a', b'⟩ := ab
        rw [hsub] at h
        simp at h
        obtain ⟨rfl, rfl⟩ := h
        intro x hx
        rcases List.mem_cons.mp hx with hx | hx
        · rw [hx]; simp [hc]
        · exact ih hsub x hx

theorem splitAtFirst_found {p : Char → Bool} {l a b : List Char}
    (h : splitAtFirst p l = some (a, b)) : ∃ c cs, b = c :: cs ∧ p c := by
  induction l generalizing a b with
  | nil => simp [splitAtFirst] at h
  | cons c cs ih =>
    by_cases hc : p c
    · simp [splitAtFirst, hc] at h
      obtain ⟨rfl, rfl⟩ := h
      exact ⟨c, cs, rfl, hc⟩
    · simp only [splitAtFirst, if_neg hc] at h
      cases hsub : splitAtFirst p cs with
      | none => rw [hsub] at h; simp at h
      | some ab =>
        obtain ⟨a', b'⟩ := ab
        rw [hsub] at h
        simp at h
        obtain ⟨rfl, rfl⟩ := h
        exact ih hsub

theorem splitAtFirst_none {p : Char → Bool} {l : List Char}
    (h : splitAtFirst p l = none) : ∀ c ∈ l, ¬ p c := by
  induction l with
  | nil => simp
  | cons c cs ih =>
    by_cases hc : p c
    · simp [splitAtFirst, hc] at h
    · simp only [splitAtFirst, if_neg hc] at h
      cases hsub : splitAtFirst p cs with
      | none =>
        intro x hx
        rcases List.mem_cons.mp hx with hx | hx
        · rw [hx]; simp [hc]
        · exact ih hsub x hx
      | some ab => rw [hsub] at h; simp at h

theorem splitOnceL_append {d : Char} {l a b : List Char}
    (h : splitOnceL d l = some (a, b)) : l = a ++ d :: b := by
  induction l generalizing a b with
  | nil => simp [splitOnceL] at h
  | cons c cs ih =>
    by_cases hc : c = d
    · simp [splitOnceL, hc] at h
      obtain ⟨rfl, rfl⟩ := h
      simp [hc]
    · simp only [splitOnceL, if_neg hc] at h
      cases hsub : splitOnceL d cs with
      | none => rw [hsub] at h; simp at h
      | some ab =>
        obtain ⟨a', b'⟩ := ab
        rw [hsub] at h
        simp at h
        obtain ⟨rfl, rfl⟩ := h
        simp [ih hsub]

theorem splitOnceL_not_before {d : Char} {l a b : List Char}
    (h : splitOnceL d l = some (a, b)) : d ∉ a := by
  induction l generalizing a b with
  | nil => simp [splitOnceL] at h
  | cons c cs ih =>
    by_cases hc : c = d
    · simp [splitOnceL, hc] at h
      obtain ⟨rfl, rfl⟩ := h
      simp
    · simp only [splitOnceL, if_neg hc] at h
      cases hsub : splitOnceL d cs with
      | none => rw [hsub] at h; simp at h
      | some ab =>
        obtain ⟨a', b'⟩ := ab
        rw [hsub] at h
        simp at h
        obtain ⟨rfl, rfl⟩ := h
        intro hmem
        rcases List.mem_cons.mp hmem with hmem | hmem
        · exact hc hmem.symm
        · exact ih hsub hmem

theorem splitOnceL_length {d : Char} {l a b : List Char}
    (h : splitOnceL d l = some (a, b)) : b.length < l.length := by
  have := splitOnceL_append h
  subst this
  simp
  omega

/-- Whether `c` terminates a raw parameter value: one of `;`, `:`, `,`. -/
def isRawDelim (c : Char) : Bool :=
  c = PARAM_DELIMITER ∨ c = VALUE_DELIMITER ∨ c = PARAM_VALUE_DELIMITER

/-- Whether `c` terminates a property name: one of `;`, `:`. -/
def isNameDelim (c : Char) : Bool :=
  c = PARAM_DELIMITER ∨ c = VALUE_DELIMITER

/-- One iteration of the parameter-value loop of `ContentLineParser::parse`:
a double-quoted value (anything up to the closing quote) or a raw value
(anything up to the next `;`/`:`/`,`). -/
def parseOneValue (cs : List Char) : Except ContentLineError (String × List Char) :=
  if cs.head? = some '"' then
    match splitOnceL '"' cs.tail with
    | none => .error .MissingClosingQuote
    | some (content, rem) => .ok (String.mk content, rem)
  else
    match splitAtFirst isRawDelim cs with
    | none => .error (.MissingContentAfter PARAM_NAME_DELIMITER)
    | some (content, rem) => .ok (String.mk content, rem)

theorem parseOneValue_length {cs : List Char} {v : String} {rem : List Char}
    (h : parseOneValue cs = .ok (v, rem)) : rem.length ≤ cs.length := by
  unfold parseOneValue at h
  by_cases hq : cs.head? = some '"'
  · rw [if_pos hq] at h
    cases hsp : splitOnceL '"' cs.tail with
    | none => rw [hsp] at h; simp at h
    | some ab =>
      obtain ⟨content, rem'⟩ := ab
      rw [hsp] at h
      simp at h
      obtain ⟨-, rfl⟩ := h
      have h1 := splitOnceL_length hsp
      have h2 : cs.tail.length ≤ cs.length := by
        cases cs <;> simp
      omega
  · rw [if_neg hq] at h
    cases hsp : splitAtFirst isRawDelim cs with
    | none => rw [hsp] at h; simp at h
    | some ab =>
      obtain ⟨content, rem'⟩ := ab
      rw [hsp] at h
      simp at h
      obtain ⟨-, rfl⟩ := h
      have := splitAtFirst_append hsp
      rw [this]
      simp

/-- The comma-separated parameter-value loop of `ContentLineParser::parse`:
parse one value, then continue while the next character is `,`. -/
def parseParamValues (cs : List Char) : Except ContentLineError (List String × List Char) :=
  match h : parseOneValue cs with
  | .error e => .error e
  | .ok (v, rest) =>
    if h2 : rest.head? = some PARAM_VALUE_DELIMITER then
      match parseParamValues rest.tail with
      | .error e => .error e
      | .ok (vs, rem) => .ok (v :: vs, rem)
    else .ok ([v], rest)
termination_by cs.length
decreasing_by
  have h1 := parseOneValue_length h
  cases rest with
  | nil => simp at h2
  | cons r rs => simp_all; omega

theorem parseParamValues_length : ∀ (cs : List Char) (vs : List String) (rem : List Char),
    parseParamValues cs = .ok (vs, rem) → rem.length ≤ cs.length := by
  suffices H : ∀ (n : Nat) (cs : List Char), cs.length ≤ n →
      ∀ vs rem, parseParamValues cs = .ok (vs, rem) → rem.length ≤ cs.length by
    exact fun cs => H cs.length cs le_rfl
  intro n
  induction n with
  | zero =>
    intro cs hlen vs rem h
    have : cs = [] := List.length_eq_zero.mp (Nat.le_zero.mp hlen)
    subst this
    simp [parseParamValues, parseOneValue, splitAtFirst] at h
  | succ n ih => ?_
  intro cs hlen vs rem h
  rw [parseParamValues] at h
  split at h
  · simp at h
  · rename_i v rest hone
    split at h
    · rename_i hcomma
      split at h
      · simp at h
      · rename_i vs' rem' hrec
        simp at h
        obtain ⟨-, rfl⟩ := h
        have h1 := parseOneValue_length hone
        have h2 : rest.tail.length < cs.length := by
          cases rest with
          | nil => simp at hcomma
          | cons r rs => simp at h1 ⊢; omega
        have := ih rest.tail (by omega) vs' rem' hrec
        omega
    · simp at h
      obtain ⟨-, rfl⟩ := h
      exact parseOneValue_length hone


/-- The parameter loop of `ContentLineParser::parse`: while the remainder
starts with `;`, drop it, split a `key=`, parse the comma-separated values,
and record `(key.to_uppercase(), values)`. -/
def parseParams (cs : List Char) : Except ContentLineError (List (String × List String) × List Char) :=
  if cs.head? = some PARAM_DELIMITER then
    match hk : splitOnceL PARAM_NAME_DELIMITER cs.tail with
    | none => .error (.MissingDelimiter PARAM_NAME_DELIMITER)
    | some (key, rest2) =>
      if key = [] then .error .MissingParamKey
      else match hv : parseParamValues rest2 with
        | .error e => .error e
        | .ok (vals, rest3) =>
          match parseParams rest3 with
          | .error e => .error e
          | .ok (ps, rem) => .ok ((upperS key, vals) :: ps, rem)
  else .ok ([], cs)
termination_by cs.length
decreasing_by
  have h1 := parseParamValues_length rest2 vals rest3 hv
  have h2 := splitOnceL_length hk
  have h3 : cs.tail.length < cs.length := by
    cases cs with
    | nil => simp_all
    | cons c cs => simp
  omega

theorem parseParams_sub : ∀ (cs : List Char) ps rem,
    parseParams cs = .ok (ps, rem) → rem.length ≤ cs.length := by
  suffices H : ∀ (n : Nat) (cs : List Char), cs.length ≤ n →
      ∀ ps rem, parseParams cs = .ok (ps, rem) → rem.length ≤ cs.length by
    exact fun cs => H cs.length cs le_rfl
  intro n
  induction n with
  | zero =>
    intro cs hlen ps rem h
    have : cs = [] := List.length_eq_zero.mp (Nat.le_zero.mp hlen)
    subst this
    simp_all [parseParams]
  | succ n ih => ?_
  intro cs hlen ps rem h
  rw [parseParams] at h
  by_cases hc : cs.head? = some PARAM_DELIMITER
  · rw [if_pos hc] at h
    split at h
    · simp at h
    · rename_i key rest2 hkey
      split at h
      · simp at h
      · split at h
        · simp at h
        · rename_i vals rest3 hvals
          split at h
          · simp at h
          · rename_i ps' rem' hps
            simp at h
            obtain ⟨-, rfl⟩ := h
            have h1 := parseParamValues_length rest2 vals rest3 hvals
            have h2 := splitOnceL_length hkey
            have h3 : cs.tail.length < cs.length := by
              cases cs with
              | nil => simp_all
              | cons c cs => simp
            have h4 := ih rest3 (by omega) ps' rem' hps
            omega
  · rw [if_neg hc] at h
    simp at h
    obtain ⟨-, rfl⟩ := h
    exact le_rfl

/-- `ContentLineParser::parse` (`src/parser/content_line.rs` lines 132-213):
split the name at the first `;`/`:`, loop over `;`-led parameters, then
require `:` and take the rest of the line as the value (`None` when
empty). -/
def contentLineParse (cs : List Char) : Except ContentLineError ContentLine :=
  match splitAtFirst isNameDelim cs with
  | none => .error .MissingName
  | some (nm, rest) =>
    if nm = [] then .error .MissingName
    else match parseParams rest with
    | .error e => .error e
    | .ok (ps, rest2) =>
      match rest2 with
      | ':' :: tail =>
        .ok ⟨upperS nm, ps, if tail = [] then none else some (String.mk tail)⟩
      | _ => .error .MissingValue

theorem parseOneValue_suffix {cs : List Char} {v : String} {rem : List Char}
    (h : parseOneValue cs = .ok (v, rem)) : rem <:+ cs := by
  unfold parseOneValue at h
  by_cases hq : cs.head? = some '"'
  · rw [if_pos hq] at h
    cases hsp : splitOnceL '"' cs.tail with
    | none => rw [hsp] at h; simp at h
    | some ab =>
      obtain ⟨content, rem'⟩ := ab
      rw [hsp] at h
      simp at h
      obtain ⟨-, rfl⟩ := h
      have hd := splitOnceL_append hsp
      cases cs with
      | nil => simp at hq
      | cons c cs' =>
        simp at hq hd
        refine ⟨c :: content ++ ['"'], ?_⟩
        simp [hd, hq]
  · rw [if_neg hq] at h
    cases hsp : splitAtFirst isRawDelim cs with
    | none => rw [hsp] at h; simp at h
    | some ab =>
      obtain ⟨content, rem'⟩ := ab
      rw [hsp] at h
      simp at h
      obtain ⟨-, rfl⟩ := h
      exact ⟨content, (splitAtFirst_append hsp).symm⟩

theorem parseParamValues_suffix : ∀ (cs : List Char) (vs : List String) (rem : List Char),
    parseParamValues cs = .ok (vs, rem) → rem <:+ cs := by
  suffices H : ∀ (n : Nat) (cs : List Char), cs.length ≤ n →
      ∀ vs rem, parseParamValues cs = .ok (vs, rem) → rem <:+ cs by
    exact fun cs => H cs.length cs le_rfl
  intro n
  induction n with
  | zero =>
    intro cs hlen vs rem h
    have : cs = [] := List.length_eq_zero.mp (Nat.le_zero.mp hlen)
    subst this
    simp [parseParamValues, parseOneValue, splitAtFirst] at h
  | succ n ih => ?_
  intro cs hlen vs rem h
  rw [parseParamValues] at h
  split at h
  · simp at h
  · rename_i v rest hone
    split at h
    · rename_i hcomma
      split at h
      · simp at h
      · rename_i vs' rem' hrec
        simp at h
        obtain ⟨-, rfl⟩ := h
        have h1 := parseOneValue_length hone
        have hlt : rest.tail.length < cs.length := by
          cases rest with
          | nil => simp at hcomma
          | cons r rs => simp at h1 ⊢; omega
        have h2 := ih rest.tail (by omega) vs' rem' hrec
        have h3 : rest.tail <:+ cs := by
          exact (List.tail_suffix rest).trans (parseOneValue_suffix hone)
        exact h2.trans h3
    · simp at h
      obtain ⟨-, rfl⟩ := h
      exact parseOneValue_suffix hone

theorem parseParams_suffix : ∀ (cs : List Char) ps rem,
    parseParams cs = .ok (ps, rem) → rem <:+ cs := by
  suffices H : ∀ (n : Nat) (cs : List Char), cs.length ≤ n →
      ∀ ps rem, parseParams cs = .ok (ps, rem) → rem <:+ cs by
    exact fun cs => H cs.length cs le_rfl
  intro n
  induction n with
  | zero =>
    intro cs hlen ps rem h
    have : cs = [] := List.length_eq_zero.mp (Nat.le_zero.mp hlen)
    subst this
    simp_all [parseParams]
  | succ n ih => ?_
  intro cs hlen ps rem h
  rw [parseParams] at h
  by_cases hc : cs.head? = some PARAM_DELIMITER
  · rw [if_pos hc] at h
    split at h
    · simp at h
    · rename_i key rest2 hkey
      split at h
      · simp at h
      · split at h
        · simp at h
        · rename_i vals rest3 hvals
          split at h
          · simp at h
          · rename_i ps' rem' hps
            simp at h
            obtain ⟨-, rfl⟩ := h
            have h1 := parseParamValues_length rest2 vals rest3 hvals
            have h2 := splitOnceL_length hkey
            have h3 : cs.tail.length < cs.length := by
              cases cs with
              | nil => simp_all
              | cons c cs => simp
            have h4 := ih rest3 (by omega) ps' rem' hps
            have h5 : rest3 <:+ rest2 := parseParamValues_suffix rest2 vals rest3 hvals
            have h6 : rest2 <:+ cs.tail := by
              have := splitOnceL_append hkey
              exact ⟨key ++ [PARAM_NAME_DELIMITER], by simp [this]⟩
            have h7 : cs.tail <:+ cs := List.tail_suffix cs
            exact (h4.trans (h5.trans (h6.trans h7)) : rem' <:+ cs)
  · rw [if_neg hc] at h
    simp at h
    obtain ⟨-, rfl⟩ := h
    exact List.suffix_rfl

/-- Claim C7: for every logical line handed to `ContentLineParser`, if no
`:` delimiter introduces the value the parser returns an error, and if the
`:` is present but followed by nothing the parser succeeds with
`value = None`.  Formally: a line containing no `:` at all never parses,
and every successful parse decomposes the line as `pre ++ ':' ++ tail`
with `value = None` exactly when `tail` is empty (and `Some tail`
otherwise). -/
theorem C7_missing_or_empty_value (cs : List Char) :
    (VALUE_DELIMITER ∉ cs → ∃ e, contentLineParse cs = .error e) ∧
    (∀ cl, contentLineParse cs = .ok cl →
      ∃ pre tail, cs = pre ++ VALUE_DELIMITER :: tail ∧
        cl.value = if tail = [] then none else some (String.mk tail)) := by
  have main : ∀ cl, contentLineParse cs = .ok cl →
      ∃ pre tail, cs = pre ++ VALUE_DELIMITER :: tail ∧
        cl.value = if tail = [] then none else some (String.mk tail) := by
    intro cl h
    unfold contentLineParse at h
    cases hsp : splitAtFirst isNameDelim cs with
    | none => rw [hsp] at h; simp at h
    | some ab =>
      obtain ⟨nm, rest⟩ := ab
      rw [hsp] at h
      dsimp only at h
      by_cases hnm : nm = []
      · rw [if_pos hnm] at h; simp at h
      · rw [if_neg hnm] at h
        cases hps : parseParams rest with
        | error e => rw [hps] at h; simp at h
        | ok pr =>
          obtain ⟨ps, rest2⟩ := pr
          rw [hps] at h
          match hr2 : rest2 with
          | [] => simp at h
          | c :: tail =>
            by_cases hc : c = ':'
            · subst hc
              simp at h
              obtain ⟨cons2, hcons2⟩ := parseParams_suffix rest ps (':' :: tail) hps
              refine ⟨nm ++ cons2, tail, ?_, ?_⟩
              · rw [splitAtFirst_append hsp, ← hcons2]
                simp [VALUE_DELIMITER]
              · rw [← h]
            · dsimp only at h
              split at h
              · rename_i tail2 heq
                rw [List.cons.injEq] at heq
                exact absurd heq.1 hc
              · simp at h
  refine ⟨?_, main⟩
  intro hno
  cases hres : contentLineParse cs with
  | error e => exact ⟨e, rfl⟩
  | ok cl =>
    obtain ⟨pre, tail, hdec, -⟩ := main cl hres
    exact absurd (hdec ▸ (List.mem_append.mpr (Or.inr (List.mem_cons_self _ _)))) hno

/-- Witness for C7: the line `A:` parses with `value = None` and decomposes
at its `:`; the line `A` (no `:`) fails. -/
theorem C7_missing_or_empty_value_witness :
    (∃ pre tail, (['A', ':'] : List Char) = pre ++ VALUE_DELIMITER :: tail ∧
      (ContentLine.mk "A" [] none).value =
        if tail = [] then none else some (String.mk tail)) ∧
    (∃ e, contentLineParse ['A'] = .error e) :=
  ⟨(C7_missing_or_empty_value ['A', ':']).2 ⟨"A", [], none⟩ (by
      simp [contentLineParse, splitAtFirst, isNameDelim, parseParams, upperS, upperL,
        upperChar, PARAM_DELIMITER, VALUE_DELIMITER]),
   (C7_missing_or_empty_value ['A']).1 (by decide)⟩

/-- Modelled from the spec: the content-line emitter (the `Emitter`
implementation for `ContentLine` is not under `src/`; spec section 4.8:
params serialized as `;KEY=value` with quoting when the raw value contains
`:`, `;` or `,`, then `:` and the value).  One parameter value, quoted when
it contains a delimiter. -/
def genValue (v : String) : List Char :=
  if v.data.any isRawDelim then '"' :: v.data ++ ['"'] else v.data

/-- Modelled from the spec: comma-separated parameter values. -/
def genValues : List String → List Char
  | [] => []
  | [v] => genValue v
  | v :: vs => genValue v ++ PARAM_VALUE_DELIMITER :: genValues vs

/-- Modelled from the spec: one `;KEY=value,…` parameter. -/
def genParam (kv : String × List String) : List Char :=
  PARAM_DELIMITER :: kv.1.data ++ PARAM_NAME_DELIMITER :: genValues kv.2

/-- Modelled from the spec: a full content line
`NAME;K1=v1;…:value` (no 75-octet folding: folding belongs to the missing
`LineReader` layer and is invisible at this level). -/
def genCL (cl : ContentLine) : List Char :=
  cl.name.data ++ cl.params.flatMap genParam ++
    VALUE_DELIMITER :: (match cl.value with | none => [] | some v => v.data)

/-- A parameter value in the normal form produced by parsing: if it needs
quoting it contains no double quote, otherwise it does not start with
one. -/
def wfValue (v : String) : Bool :=
  if v.data.any isRawDelim then decide ('"' ∉ v.data) else decide (v.data.head? ≠ some '"')

/-- A parameter key in parse normal form: nonempty, free of `=`, uppercase. -/
def wfKey (k : String) : Bool :=
  decide (k.data ≠ []) && decide ('=' ∉ k.data) && decide (upperL k.data = k.data)

/-- A name in parse normal form: nonempty, free of `;`/`:`, uppercase. -/
def wfName (n : String) : Bool :=
  decide (n.data ≠ []) && decide (n.data.all (fun c => ¬ isNameDelim c)) &&
    decide (upperL n.data = n.data)

/-- A content line in the normal form produced by `ContentLineParser::parse`:
emitting it and parsing the emission reproduces it exactly. -/
def wfCL (cl : ContentLine) : Bool :=
  wfName cl.name &&
    cl.params.all (fun kv => wfKey kv.1 && decide (kv.2 ≠ []) && kv.2.all wfValue) &&
    (match cl.value with | none => true | some v => decide (v.data ≠ []))

theorem splitAtFirst_of_clean {p : Char → Bool} {a : List Char} {c : Char} (b : List Char)
    (ha : ∀ x ∈ a, ¬ p x) (hc : p c) : splitAtFirst p (a ++ c :: b) = some (a, c :: b) := by
  induction a with
  | nil => simp [splitAtFirst, hc]
  | cons x xs ih =>
    have hx : ¬ p x := ha x (by simp)
    simp only [List.cons_append, splitAtFirst, if_neg hx, List.append_eq]
    rw [ih (fun y hy => ha y (by simp [hy]))]

theorem splitOnceL_of_clean {d : Char} {a : List Char} (b : List Char)
    (ha : d ∉ a) : splitOnceL d (a ++ d :: b) = some (a, b) := by
  induction a with
  | nil => simp [splitOnceL]
  | cons x xs ih =>
    have hx : ¬ x = d := fun hh => ha (by simp [hh])
    simp only [List.cons_append, splitOnceL, if_neg hx, List.append_eq]
    rw [ih (fun hh => ha (by simp [hh]))]

theorem String.mk_data (s : String) : String.mk s.data = s := rfl

theorem parseOneValue_gen (v : String) (c : Char) (after : List Char)
    (hwf : wfValue v) (hc : isRawDelim c) :
    parseOneValue (genValue v ++ c :: after) = .ok (v, c :: after) := by
  unfold wfValue at hwf
  unfold genValue parseOneValue
  by_cases hq : v.data.any isRawDelim
  · rw [if_pos hq]
    rw [if_pos hq] at hwf
    simp only [decide_eq_true_eq] at hwf
    have hhead : (('"' :: v.data ++ ['"']) ++ c :: after).head? = some '"' := by simp
    rw [if_pos hhead]
    have : (('"' :: v.data ++ ['"']) ++ c :: after).tail = v.data ++ '"' :: (c :: after) := by
      simp
    rw [this, splitOnceL_of_clean _ hwf]
  · rw [if_neg hq]
    rw [if_neg hq] at hwf
    simp only [decide_eq_true_eq] at hwf
    have hhead : ¬ (v.data ++ c :: after).head? = some '"' := by
      revert hwf
      generalize v.data = l
      intro hwf
      cases l with
      | nil =>
        simp only [List.nil_append, List.head?_cons]
        intro hcq
        simp only [Option.some.injEq] at hcq
        rw [hcq] at hc
        simp [isRawDelim, PARAM_DELIMITER, VALUE_DELIMITER, PARAM_VALUE_DELIMITER] at hc
      | cons x xs =>
        simp only [List.cons_append, List.head?_cons]
        intro hcq
        simp only [Option.some.injEq] at hcq
        rw [hcq] at hwf
        simp at hwf
    rw [if_neg hhead]
    have hclean : ∀ x ∈ v.data, ¬ isRawDelim x := by
      intro x hx hh
      rw [List.any_eq_true] at hq
      exact hq ⟨x, hx, hh⟩
    rw [splitAtFirst_of_clean _ hclean hc]

theorem parseParamValues_step (cs : List Char) (v : String) (rest : List Char)
    (h : parseOneValue cs = .ok (v, rest)) :
    parseParamValues cs = (if rest.head? = some PARAM_VALUE_DELIMITER then
      match parseParamValues rest.tail with
      | .error e => .error e
      | .ok (vs, rem) => .ok (v :: vs, rem)
    else .ok ([v], rest)) := by
  rw [parseParamValues]
  split
  · simp_all
  · rename_i v' rest' heq
    rw [h] at heq
    simp at heq
    obtain ⟨rfl, rfl⟩ := heq
    by_cases hcomma : rest.head? = some PARAM_VALUE_DELIMITER
    · rw [dif_pos hcomma, if_pos hcomma]
    · rw [dif_neg hcomma, if_neg hcomma]

theorem parseParamValues_gen (vs : List String) (c : Char) (after : List Char)
    (hne : vs ≠ []) (hwf : vs.all wfValue) (hc : isRawDelim c) (hnc : ¬ c = ',') :
    parseParamValues (genValues vs ++ c :: after) = .ok (vs, c :: after) := by
  induction vs with
  | nil => exact absurd rfl hne
  | cons v vs ih =>
    simp only [List.all_cons, Bool.and_eq_true] at hwf
    cases vs with
    | nil =>
      rw [show genValues [v] = genValue v from rfl]
      rw [parseParamValues_step _ v (c :: after) (parseOneValue_gen v c after hwf.1 hc)]
      rw [if_neg (by simp [PARAM_VALUE_DELIMITER]; intro hcc; exact absurd hcc hnc)]
    | cons v2 vs2 =>
      rw [show genValues (v :: v2 :: vs2) =
          genValue v ++ PARAM_VALUE_DELIMITER :: genValues (v2 :: vs2) from rfl]
      have hassoc : (genValue v ++ PARAM_VALUE_DELIMITER :: genValues (v2 :: vs2)) ++
          c :: after = genValue v ++ ',' :: (genValues (v2 :: vs2) ++ c :: after) := by
        simp [PARAM_VALUE_DELIMITER]
      rw [hassoc]
      rw [parseParamValues_step _ v (',' :: (genValues (v2 :: vs2) ++ c :: after))
        (parseOneValue_gen v ',' (genValues (v2 :: vs2) ++ c :: after) hwf.1
          (by simp [isRawDelim, PARAM_VALUE_DELIMITER]))]
      rw [if_pos (by simp [PARAM_VALUE_DELIMITER])]
      simp only [List.tail_cons]
      rw [ih (by simp) hwf.2]

theorem parseParams_step (cs : List Char) (key rest2 : List Char) (vals : List String)
    (rest3 : List Char)
    (h1 : cs.head? = some PARAM_DELIMITER)
    (h2 : splitOnceL PARAM_NAME_DELIMITER cs.tail = some (key, rest2))
    (h3 : ¬ key = [])
    (h4 : parseParamValues rest2 = .ok (vals, rest3)) :
    parseParams cs = (match parseParams rest3 with
      | .error e => .error e
      | .ok (ps, rem) => .ok ((upperS key, vals) :: ps, rem)) := by
  rw [parseParams, if_pos h1]
  split
  · simp_all
  · rename_i key' rest2' heq
    rw [h2] at heq
    simp at heq
    obtain ⟨rfl, rfl⟩ := heq
    rw [if_neg h3]
    split
    · simp_all
    · rename_i vals' rest3' heq2
      rw [h4] at heq2
      simp at heq2
      obtain ⟨rfl, rfl⟩ := heq2
      rfl

theorem parseParams_none (cs : List Char) (h : ¬ cs.head? = some PARAM_DELIMITER) :
    parseParams cs = .ok ([], cs) := by
  rw [parseParams, if_neg h]

theorem flatMapGen_shape (ps : List (String × List String)) (valpart : List Char) :
    ∃ c after, ps.flatMap genParam ++ VALUE_DELIMITER :: valpart = c :: after ∧
      (c = PARAM_DELIMITER ∨ c = VALUE_DELIMITER) := by
  cases ps with
  | nil => exact ⟨VALUE_DELIMITER, valpart, by simp, Or.inr rfl⟩
  | cons kv ps =>
    refine ⟨PARAM_DELIMITER,
      (kv.1.data ++ PARAM_NAME_DELIMITER :: genValues kv.2) ++
        (ps.flatMap genParam ++ VALUE_DELIMITER :: valpart), ?_, Or.inl rfl⟩
    simp [genParam]

theorem parseParams_gen (ps : List (String × List String)) (valpart : List Char)
    (hwf : ps.all (fun kv => wfKey kv.1 && decide (kv.2 ≠ []) && kv.2.all wfValue)) :
    parseParams (ps.flatMap genParam ++ VALUE_DELIMITER :: valpart) =
      .ok (ps, VALUE_DELIMITER :: valpart) := by
  induction ps with
  | nil =>
    apply parseParams_none
    simp [VALUE_DELIMITER, PARAM_DELIMITER]
  | cons kv ps ih =>
    obtain ⟨k, vs⟩ := kv
    simp only [List.all_cons, Bool.and_eq_true] at hwf
    obtain ⟨⟨⟨hk, hvne⟩, hvwfv⟩, hpswf⟩ := hwf
    unfold wfKey at hk
    simp only [Bool.and_eq_true, decide_eq_true_eq] at hk hvne
    obtain ⟨⟨hkne, hkeq⟩, hkup⟩ := hk
    obtain ⟨c, after, hshape, hcor⟩ := flatMapGen_shape ps valpart
    have hc : isRawDelim c := by
      rcases hcor with h | h <;> simp [isRawDelim, h]
    have hnc : ¬ c = ',' := by
      rcases hcor with h | h <;> simp [h, PARAM_DELIMITER, VALUE_DELIMITER,
        PARAM_VALUE_DELIMITER]
    have hline : (((k, vs) :: ps).flatMap genParam ++ VALUE_DELIMITER :: valpart) =
        PARAM_DELIMITER :: (k.data ++ PARAM_NAME_DELIMITER ::
          (genValues vs ++ (ps.flatMap genParam ++ VALUE_DELIMITER :: valpart))) := by
      simp [genParam]
    rw [hline]
    rw [parseParams_step _ k.data
      (genValues vs ++ (ps.flatMap genParam ++ VALUE_DELIMITER :: valpart)) vs
      (ps.flatMap genParam ++ VALUE_DELIMITER :: valpart)
      (by simp)
      (by
        simp only [List.tail_cons]
        exact splitOnceL_of_clean _ hkeq)
      (by simpa using hkne)
      (by
        rw [hshape]
        exact parseParamValues_gen vs c after hvne hvwfv hc hnc)]
    rw [ih hpswf]
    rw [show upperS k.data = k from by
      unfold upperS
      rw [hkup, String.mk_data]]

theorem contentLineParse_gen_aux (nm : String) (ps : List (String × List String))
    (valpart : List Char)
    (hnne : nm.data ≠ []) (hnclean : ∀ x ∈ nm.data, ¬ isNameDelim x)
    (hnup : upperL nm.data = nm.data)
    (hps : (ps.all fun kv => wfKey kv.1 && decide (kv.2 ≠ []) && kv.2.all wfValue) = true) :
    contentLineParse (nm.data ++ ps.flatMap genParam ++ VALUE_DELIMITER :: valpart) =
      .ok ⟨nm, ps, if valpart = [] then none else some (String.mk valpart)⟩ := by
  unfold contentLineParse
  obtain ⟨c, after, hshape, hcor⟩ := flatMapGen_shape ps valpart
  have hcnd : isNameDelim c := by
    rcases hcor with h | h <;> simp [isNameDelim, h]
  rw [List.append_assoc, hshape, splitAtFirst_of_clean _ hnclean hcnd]
  dsimp only
  rw [if_neg hnne, ← hshape, parseParams_gen ps _ hps]
  dsimp only
  rw [show upperS nm.data = nm from by unfold upperS; rw [hnup, String.mk_data]]
  rw [show (VALUE_DELIMITER : Char) = ':' from rfl]
  rfl

/-- Round trip at the content-line level: a content line in parse normal
form, emitted by the (spec-modelled) emitter, parses back to itself. -/
theorem contentLineParse_gen (cl : ContentLine) (hwf : wfCL cl) :
    contentLineParse (genCL cl) = .ok cl := by
  obtain ⟨nm, ps, val⟩ := cl
  unfold wfCL at hwf
  simp only [Bool.and_eq_true] at hwf
  obtain ⟨⟨hn, hps⟩, hval⟩ := hwf
  unfold wfName at hn
  simp only [Bool.and_eq_true, decide_eq_true_eq, List.all_eq_true] at hn
  obtain ⟨⟨hnne, hnclean⟩, hnup⟩ := hn
  cases val with
  | none =>
    have := contentLineParse_gen_aux nm ps [] hnne hnclean hnup hps
    simpa [genCL] using this
  | some v =>
    simp only [decide_eq_true_eq] at hval
    have := contentLineParse_gen_aux nm ps v.data hnne hnclean hnup hps
    rw [if_neg hval] at this
    simpa [genCL, String.mk_data] using this

/-- Parser errors (`src/parser/error.rs`).  Payload types no claim inspects
(durations, date-time errors, rrule errors) are collapsed to bare
constructors. -/
inductive ParserError where
  | EmptyInput
  | TooManyComponents
  | InvalidComponent (name : String)
  | NotComplete
  | MissingHeader
  | ContentLineError (e : ContentLineError)
  | MissingProperty (name : String)
  | MissingUID
  | PropertyConflict (msg : String)
  | InvalidDuration
  | InvalidPropertyValue (v : String)
  | InvalidPropertyType (v : String)
  | RRule
  | DateTime
  | InvalidCalscale
  | InvalidVersion
  | MultipleMainObjects
  | DifferingUIDs
  | MissingRecurId
  | DtstartNotMatchingRecurId
deriving DecidableEq

/-- A generic component tree: component name, raw properties, sub-components
in order.  This is the shape every `Component` implementation shares
(`get_comp_name`, `get_properties`, typed children). -/
inductive RawComp where
  | mk (name : String) (props : List ContentLine) (subs : List RawComp)

/-- Name of a component tree node. -/
def RawComp.name : RawComp → String
  | .mk n _ _ => n

/-- Properties of a component tree node. -/
def RawComp.props : RawComp → List ContentLine
  | .mk _ p _ => p

/-- Sub-components of a component tree node. -/
def RawComp.subs : RawComp → List RawComp
  | .mk _ _ s => s

/-- The body loop of `ComponentMut::parse` (`src/component/mod.rs` lines
72-88) over an already-parsed content-line stream: `END` (whatever its
value) terminates, `BEGIN` delegates to the sub-component parse (modelled
permissively: any child name is accepted, the upper bound of the
per-component `add_sub_component` whitelists), anything else is appended as
a raw property.  `fuel` bounds the recursion; every claim instantiates it
above the stream length, where it never runs out. -/
def componentParse : Nat → List ContentLine →
    Except ParserError ((List ContentLine × List RawComp) × List ContentLine)
  | 0, _ => .error .NotComplete
  | _ + 1, [] => .error .NotComplete
  | fuel + 1, line :: rest =>
    if line.name = "END" then .ok (([], []), rest)
    else if line.name = "BEGIN" then
      match componentParse fuel rest with
      | .error e => .error e
      | .ok ((subProps, subSubs), rest2) =>
        match componentParse fuel rest2 with
        | .error e => .error e
        | .ok ((props, subs), rest3) =>
          .ok ((props,
            RawComp.mk (match line.value with | some v => v | none => "") subProps subSubs
              :: subs), rest3)
    else
      match componentParse fuel rest with
      | .error e => .error e
      | .ok ((props, subs), rest2) => .ok ((line :: props, subs), rest2)

/-- Claim C9: the component-body parse loop terminates at the first content
line whose name is `END`, regardless of that line's value: a `BEGIN`-free
prefix is accumulated as properties, and an `END` line with any value
(matching the component name or not) closes the component without error,
leaving the rest of the stream untouched. -/
theorem C9_end_ignores_value (fuel : Nat) (pre : List ContentLine) (v : Option String)
    (rest : List ContentLine)
    (hpre : ∀ p ∈ pre, p.name ≠ "END" ∧ p.name ≠ "BEGIN")
    (hfuel : pre.length < fuel) :
    componentParse fuel (pre ++ ⟨"END", [], v⟩ :: rest) = .ok ((pre, []), rest) := by
  induction pre generalizing fuel with
  | nil =>
    match fuel, hfuel with
    | f + 1, _ => simp [componentParse]
  | cons p ps ih =>
    match fuel, hfuel with
    | f + 1, hfuel =>
      have hp := hpre p (by simp)
      rw [List.cons_append, componentParse]
      rw [if_neg hp.1, if_neg hp.2]
      rw [ih f (fun q hq => hpre q (List.mem_cons_of_mem p hq)) (by simp at hfuel; omega)]

/-- Witness for C9: a one-property body closed by `END:MISMATCH` (a value
that matches no component name) parses successfully and stops right there. -/
theorem C9_end_ignores_value_witness :
    componentParse 2
      [⟨"SUMMARY", [], some "x"⟩, ⟨"END", [], some "MISMATCH"⟩, ⟨"LEFTOVER", [], none⟩] =
      .ok (([⟨"SUMMARY", [], some "x"⟩], []), [⟨"LEFTOVER", [], none⟩]) :=
  C9_end_ignores_value 2 [⟨"SUMMARY", [], some "x"⟩] (some "MISMATCH")
    [⟨"LEFTOVER", [], none⟩] (by decide) (by decide)

/-- One emitted physical line (before CRLF). -/
def genLine (cl : ContentLine) : String := String.mk (genCL cl)

/-- The body loop of `ComponentMut::parse` composed with
`ContentLineParser`: each pulled line is parsed on demand, then dispatched
exactly as in `componentParse`.  This is the lazy parser pipeline of the
source restricted to one component body. -/
def componentParseStr : Nat → List String →
    Except ParserError ((List ContentLine × List RawComp) × List String)
  | 0, _ => .error .NotComplete
  | _ + 1, [] => .error .NotComplete
  | fuel + 1, l :: rest =>
    match contentLineParse l.data with
    | .error e => .error (.ContentLineError e)
    | .ok line =>
      if line.name = "END" then .ok (([], []), rest)
      else if line.name = "BEGIN" then
        match componentParseStr fuel rest with
        | .error e => .error e
        | .ok ((subProps, subSubs), rest2) =>
          match componentParseStr fuel rest2 with
          | .error e => .error e
          | .ok ((props, subs), rest3) =>
            .ok ((props,
              RawComp.mk (match line.value with | some v => v | none => "") subProps subSubs
                :: subs), rest3)
      else
        match componentParseStr fuel rest with
        | .error e => .error e
        | .ok ((props, subs), rest2) => .ok ((line :: props, subs), rest2)

/-- `ComponentParser::check_header` (`src/parser/component.rs` lines 37-52):
the first line must be `BEGIN`, with a value whose uppercase form is one of
the component's names, and without parameters. -/
def checkHeader (names : List String) (line : ContentLine) : Bool :=
  line.name == "BEGIN" && line.value.isSome &&
    names.contains (upperS (line.value.getD "").data) && line.params == []

/-- One iteration of `ComponentParser::next`: check the header line, then
parse the component body (`build()` is component-specific and modelled
separately per claim).  The produced node carries the uppercased header
value, the fixed name of the parsed component type. -/
def topParseStr (names : List String) (fuel : Nat) (lines : List String) :
    Except ParserError (RawComp × List String) :=
  match lines with
  | [] => .error .EmptyInput
  | l :: rest =>
    match contentLineParse l.data with
    | .error e => .error (.ContentLineError e)
    | .ok line =>
      if checkHeader names line then
        match componentParseStr fuel rest with
        | .error e => .error e
        | .ok ((props, subs), rem) =>
          .ok (RawComp.mk (upperS (line.value.getD "").data) props subs, rem)
      else .error .MissingHeader

/-- Modelled from the spec: the component emitter (`generate_emitter!` in
`src/generator/ical.rs` renders `BEGIN:<name>`, the raw properties, the
sub-components, `END:<name>`; line splitting at CRLF recovers exactly these
lines since no emitted line contains a CR or LF). -/
def emitComp : RawComp → List String
  | .mk name props subs =>
    ("BEGIN:" ++ name) ::
      (props.map genLine ++ (subs.attach.flatMap fun x => emitComp x.1) ++
        ["END:" ++ name])
decreasing_by
  have h1 := List.sizeOf_lt_of_mem x.2
  simp only [RawComp.mk.sizeOf_spec]
  omega

theorem emitComp_eq (name : String) (props : List ContentLine) (subs : List RawComp) :
    emitComp (.mk name props subs) =
      ("BEGIN:" ++ name) ::
        (props.map genLine ++ subs.flatMap emitComp ++ ["END:" ++ name]) := by
  rw [emitComp]
  rw [List.flatMap_def, List.flatMap_def, List.attach_map_coe]

/-- A component tree in parse normal form: its name is uppercase and
delimiter-free, its properties are normal-form content lines that are not
named `BEGIN` or `END` (spec invariant 1), and its children are well
formed. -/
def wfComp : RawComp → Bool
  | .mk name props subs =>
    wfName name &&
      props.all (fun p => wfCL p && !(p.name == "BEGIN") && !(p.name == "END")) &&
      subs.attach.all fun x => wfComp x.1
decreasing_by
  have h1 := List.sizeOf_lt_of_mem x.2
  simp only [RawComp.mk.sizeOf_spec]
  omega

theorem wfComp_eq (name : String) (props : List ContentLine) (subs : List RawComp) :
    wfComp (.mk name props subs) =
      (wfName name &&
        props.all (fun p => wfCL p && !(p.name == "BEGIN") && !(p.name == "END")) &&
        subs.all wfComp) := by
  rw [wfComp]
  congr 1
  rw [Bool.eq_iff_iff, List.all_eq_true, List.all_eq_true]
  constructor
  · intro h a ha
    exact h ⟨a, ha⟩ (List.mem_attach subs ⟨a, ha⟩)
  · intro h x hx
    exact h x.1 x.2

theorem parse_begin_line (name : String) :
    contentLineParse ("BEGIN:" ++ name).data =
      .ok ⟨"BEGIN", [], if name.data = [] then none else some (String.mk name.data)⟩ := by
  have h := contentLineParse_gen_aux "BEGIN" [] name.data (by decide) (by decide) (by decide)
    (by rfl)
  simpa using h

theorem parse_end_line (name : String) :
    contentLineParse ("END:" ++ name).data =
      .ok ⟨"END", [], if name.data = [] then none else some (String.mk name.data)⟩ := by
  have h := contentLineParse_gen_aux "END" [] name.data (by decide) (by decide) (by decide)
    (by rfl)
  simpa using h

theorem componentParseStr_gen : ∀ (fuel : Nat) (ps : List ContentLine) (cs : List RawComp)
    (n : String) (rest : List String),
    ps.all (fun p => wfCL p && !(p.name == "BEGIN") && !(p.name == "END")) = true →
    cs.all wfComp = true →
    ps.length + (cs.flatMap emitComp).length < fuel →
    componentParseStr fuel (ps.map genLine ++ cs.flatMap emitComp ++ ("END:" ++ n) :: rest) =
      .ok ((ps, cs), rest) := by
  intro fuel
  induction fuel with
  | zero => intro ps cs n rest _ _ h; omega
  | succ fuel ih => ?_
  intro ps cs n rest hps hcs hfuel
  match ps with
  | p :: ps2 =>
    simp only [List.all_cons, Bool.and_eq_true, Bool.not_eq_true', beq_eq_false_iff_ne,
      ne_eq] at hps
    obtain ⟨⟨⟨hwfp, hpb⟩, hpe⟩, hps2⟩ := hps
    rw [List.map_cons, List.cons_append, List.cons_append, componentParseStr]
    rw [show (genLine p).data = genCL p from rfl]
    rw [contentLineParse_gen p hwfp]
    dsimp only
    rw [if_neg hpe, if_neg hpb]
    rw [ih ps2 cs n rest (by simpa using hps2) hcs (by simp at hfuel ⊢; omega)]
  | [] =>
    match cs with
    | c :: cs2 =>
      obtain ⟨cn, cps, csubs⟩ := c
      simp only [List.all_cons, Bool.and_eq_true] at hcs
      obtain ⟨hc, hcs2⟩ := hcs
      rw [wfComp_eq] at hc
      simp only [Bool.and_eq_true] at hc
      obtain ⟨⟨hcn, hcps⟩, hcsubs⟩ := hc
      have hcnne : cn.data ≠ [] := by
        unfold wfName at hcn
        simp only [Bool.and_eq_true, decide_eq_true_eq] at hcn
        exact hcn.1.1
      have hstream : ([] : List ContentLine).map genLine ++
          ((RawComp.mk cn cps csubs) :: cs2).flatMap emitComp ++ ("END:" ++ n) :: rest =
          ("BEGIN:" ++ cn) :: (cps.map genLine ++ csubs.flatMap emitComp ++
            ("END:" ++ cn) :: (cs2.flatMap emitComp ++ ("END:" ++ n) :: rest)) := by
        rw [List.flatMap_cons, emitComp_eq]
        simp
      rw [hstream, componentParseStr, parse_begin_line cn]
      rw [if_neg hcnne]
      dsimp only
      rw [if_neg (by decide), if_pos rfl]
      have hlen : (emitComp (RawComp.mk cn cps csubs)).length =
          cps.length + (csubs.flatMap emitComp).length + 2 := by
        rw [emitComp_eq]
        simp
        omega
      have hfuel2 : (0 : Nat) + ((RawComp.mk cn cps csubs :: cs2).flatMap emitComp).length
          < fuel + 1 := hfuel
      rw [List.flatMap_cons, List.length_append, hlen] at hfuel2
      rw [ih cps csubs cn (cs2.flatMap emitComp ++ ("END:" ++ n) :: rest) hcps hcsubs
        (by omega)]
      dsimp only
      rw [show cs2.flatMap emitComp ++ ("END:" ++ n) :: rest =
        List.map genLine [] ++ cs2.flatMap emitComp ++ ("END:" ++ n) :: rest from by simp]
      rw [ih [] cs2 n rest (by rfl) hcs2 (by simp only [List.length_nil]; omega)]
    | [] =>
      rw [show ([] : List ContentLine).map genLine ++
        ([] : List RawComp).flatMap emitComp ++ ("END:" ++ n) :: rest =
        ("END:" ++ n) :: rest from by simp]
      rw [componentParseStr, parse_end_line n]
      dsimp only
      rw [if_pos rfl]

/-- Claim C3: round trip.  For a component tree in parse normal form (the
normalizations the spec lists already applied: uppercase names,
normal-form parameters, no `BEGIN`/`END` properties), emitting it and
running the parser pipeline on the emitted lines succeeds and returns a
structurally equal tree with nothing left over.  Emitted output is always a
valid input, and since the parser output is itself in normal form, parsing
an emission of a parse result reproduces it exactly. -/
theorem C3_parse_emit_roundtrip (c : RawComp) (fuel : Nat) (hwf : wfComp c = true)
    (hfuel : (emitComp c).length ≤ fuel) :
    topParseStr [c.name] fuel (emitComp c) = .ok (c, []) := by
  obtain ⟨cn, cps, csubs⟩ := c
  rw [wfComp_eq] at hwf
  simp only [Bool.and_eq_true] at hwf
  obtain ⟨⟨hcn, hcps⟩, hcsubs⟩ := hwf
  have hcnup : upperL cn.data = cn.data := by
    unfold wfName at hcn
    simp only [Bool.and_eq_true, decide_eq_true_eq] at hcn
    exact hcn.2
  have hcnne : cn.data ≠ [] := by
    unfold wfName at hcn
    simp only [Bool.and_eq_true, decide_eq_true_eq] at hcn
    exact hcn.1.1
  rw [emitComp_eq, topParseStr, parse_begin_line cn, if_neg hcnne]
  dsimp only
  have hchk : checkHeader [(RawComp.mk cn cps csubs).name]
      ⟨"BEGIN", [], some (String.mk cn.data)⟩ = true := by
    unfold checkHeader
    simp only [RawComp.name, Option.getD_some, Option.isSome_some]
    rw [show upperS (String.mk cn.data).data = cn from by
      unfold upperS
      rw [show (String.mk cn.data).data = cn.data from rfl, hcnup, String.mk_data]]
    simp
  rw [if_pos hchk]
  rw [show cps.map genLine ++ csubs.flatMap emitComp ++ ["END:" ++ cn] =
    cps.map genLine ++ csubs.flatMap emitComp ++ ("END:" ++ cn) :: [] from rfl]
  rw [componentParseStr_gen fuel cps csubs cn [] hcps hcsubs (by
    rw [emitComp_eq] at hfuel
    simp at hfuel ⊢
    omega)]
  dsimp only
  rw [show upperS ((some (String.mk cn.data)).getD "").data = cn from by
    unfold upperS
    rw [show ((some (String.mk cn.data)).getD "").data = cn.data from rfl, hcnup,
      String.mk_data]]

/-- Witness for C3: a small concrete calendar (one property, one event
child carrying a parameter) round-trips through emit and parse. -/
theorem C3_parse_emit_roundtrip_witness :
    topParseStr
      [(RawComp.mk "VCALENDAR" [⟨"VERSION", [], some "2.0"⟩]
        [RawComp.mk "VEVENT" [⟨"UID", [("X-P", ["a"])], some "u1"⟩] []]).name] 16
      (emitComp (RawComp.mk "VCALENDAR" [⟨"VERSION", [], some "2.0"⟩]
        [RawComp.mk "VEVENT" [⟨"UID", [("X-P", ["a"])], some "u1"⟩] []])) =
      .ok (RawComp.mk "VCALENDAR" [⟨"VERSION", [], some "2.0"⟩]
        [RawComp.mk "VEVENT" [⟨"UID", [("X-P", ["a"])], some "u1"⟩] []], []) :=
  C3_parse_emit_roundtrip
    (RawComp.mk "VCALENDAR" [⟨"VERSION", [], some "2.0"⟩]
      [RawComp.mk "VEVENT" [⟨"UID", [("X-P", ["a"])], some "u1"⟩] []]) 16
    (by
      simp only [wfComp_eq, List.all_cons, List.all_nil]
      decide)
    (by
      simp only [emitComp_eq, List.flatMap_cons, List.flatMap_nil, List.map_cons,
        List.map_nil]
      simp)

/-- `Tz` (`src/types/timezone.rs`): `Local` or an Olson zone, identified by
name; UTC is `Olson "UTC"`. -/
inductive Tz where
  | Local
  | Olson (id : String)
deriving DecidableEq

/-- `Tz::is_local`. -/
def Tz.is_local : Tz → Bool
  | .Local => true
  | .Olson _ => false

/-- Modelled from the spec: `CalDateOrDateTime` (the typed DATE /
DATE-TIME value; its source under `src/types/` is not in the tree).  A
date is a day number, a date-time an instant (UTC timestamp as `Int`)
with its zone. -/
inductive CalDateOrDateTime where
  | date (day : Int)
  | dateTime (instant : Int) (tz : Tz)
deriving DecidableEq

/-- `CalDateOrDateTime::is_date`. -/
def CalDateOrDateTime.is_date : CalDateOrDateTime → Bool
  | .date _ => true
  | .dateTime _ _ => false

/-- Modelled from the spec: `CalDateOrDateTime::timezone`; a bare date is
floating (local). -/
def CalDateOrDateTime.timezone : CalDateOrDateTime → Tz
  | .date _ => .Local
  | .dateTime _ tz => tz

/-- Modelled from the spec: the value type of the concrete value, `DATE`
for dates and `DATE-TIME` for date-times. -/
def CalDateOrDateTime.value_type : CalDateOrDateTime → String
  | .date _ => "DATE"
  | .dateTime _ _ => "DATE-TIME"

/-- Modelled from the spec: the UTC instant of a value (`.utc()`); for a
bare date the start of that day. -/
def CalDateOrDateTime.utc : CalDateOrDateTime → Int
  | .date d => d
  | .dateTime i _ => i

/-- Modelled from the spec: `format()`, the textual form of the value; a
concrete injective rendering stands in for the RFC 5545 date syntax. -/
def CalDateOrDateTime.format : CalDateOrDateTime → String
  | .date d => "D" ++ toString d
  | .dateTime i tz =>
    "T" ++ toString i ++ (match tz with | .Local => "" | .Olson id => "@" ++ id)

/-- Modelled from the spec: an unvalidated recurrence rule
(`RRule<Unvalidated>`; the rrule core is not under `src/`).  Only its
UNTIL matters to a claim; all other fields are opaque to them. -/
structure RRuleU where
  get_until : Option Int
deriving DecidableEq

/-- Modelled from the spec: a validated rule (`RRule<Validated>`),
carrying the UNTIL returned by `get_until`. -/
structure RRuleV where
  get_until : Option Int
deriving DecidableEq

/-- `Component::get_named_properties`: properties with the given name, in
document order. -/
def getNamedProperties (props : List ContentLine) (name : String) : List ContentLine :=
  props.filter (fun p => p.name == name)

/-- `GetProperty::safe_get_all` for a property kind whose value parser is
`parse`. -/
def safe_get_all (parse : ContentLine → Except ParserError α) (props : List ContentLine)
    (name : String) : Except ParserError (List α) :=
  (getNamedProperties props name).mapM parse

/-- `GetProperty::safe_get_optional` (`src/property/mod.rs` lines 39-53):
none / parse the only instance / conflict on a second instance (checked
before parsing). -/
def safe_get_optional (parse : ContentLine → Except ParserError α) (props : List ContentLine)
    (name : String) : Except ParserError (Option α) :=
  match getNamedProperties props name with
  | [] => .ok none
  | [p] => (parse p).map some
  | _ :: _ :: _ => .error (.PropertyConflict "Multiple instances of property")

/-- `GetProperty::safe_get_required` (`src/property/mod.rs` lines 55-61). -/
def safe_get_required (parse : ContentLine → Except ParserError α) (props : List ContentLine)
    (name : String) : Except ParserError α :=
  match safe_get_optional parse props name with
  | .error e => .error e
  | .ok none => .error (.MissingProperty name)
  | .ok (some v) => .ok v

theorem getParam_replaceParam (params : List (String × List String)) (n v : String) :
    getParam (replaceParam params n v) n = some v := by
  induction params with
  | nil => simp [replaceParam, getParam, List.find?]
  | cons kv rest ih =>
    by_cases hk : kv.1 = n
    · simp [replaceParam, hk, getParam, List.find?]
    · simp only [replaceParam, if_neg hk]
      simp only [getParam, List.find?_cons] at ih ⊢
      rw [show (kv.1 == n) = false from by simp [hk]]
      exact ih

/-- `RecurIdRange` (`src/property/recurid.rs`). -/
inductive RecurIdRange where
  | This
  | ThisAndFuture
deriving DecidableEq

/-- `IcalRECURIDProperty` (`src/property/recurid.rs`): the parsed value,
the original parameter list, the RANGE. -/
structure IcalRECURIDProperty where
  dt : CalDateOrDateTime
  params : List (String × List String)
  range : RecurIdRange
deriving DecidableEq

/-- `IcalRECURIDProperty::parse_prop` (`src/property/recurid.rs` lines
25-36); the `CalDateOrDateTime` value parser (source not in the tree) is a
parameter. -/
def recuridParseProp (parseDT : ContentLine → Except ParserError CalDateOrDateTime)
    (prop : ContentLine) : Except ParserError IcalRECURIDProperty :=
  match parseDT prop with
  | .error e => .error e
  | .ok dt =>
    match getParam prop.params "RANGE" with
    | some "THISANDFUTURE" => .ok ⟨dt, prop.params, .ThisAndFuture⟩
    | none => .ok ⟨dt, prop.params, .This⟩
    | some _ => .error (.InvalidPropertyType (genLine prop))

/-- `IcalRECURIDProperty::validate_dtstart` (`src/property/recurid.rs`
lines 44-53). -/
def recuridValidateDtstart (r : IcalRECURIDProperty) (dtstart : CalDateOrDateTime) :
    Except ParserError Unit :=
  if r.dt.is_date ≠ dtstart.is_date ∨
      r.dt.timezone.is_local ≠ dtstart.timezone.is_local then
    .error .DtstartNotMatchingRecurId
  else .ok ()

/-- `From<IcalRECURIDProperty> for ContentLine` (`src/property/recurid.rs`
lines 55-71). -/
def recuridToContentLine (v : IcalRECURIDProperty) : ContentLine :=
  ⟨"RECURRENCE-ID",
    if v.range = .ThisAndFuture then
      replaceParam
        (if v.dt.value_type ≠ "DATE-TIME" then replaceParam v.params "VALUE" v.dt.value_type
          else v.params) "RANGE" "THISANDFUTURE"
    else
      (if v.dt.value_type ≠ "DATE-TIME" then replaceParam v.params "VALUE" v.dt.value_type
        else v.params),
    some v.dt.format⟩

/-- The emission arm of the `property!` macro (`src/parser/property.rs`
lines 126-146), parameterized over the property name, its `DEFAULT_TYPE`
and the `Value` trait functions of the inner type (`value_type` and
`value`, sources not in the tree). -/
def propertyToContentLine (name default_type : String) (value_type_of : α → Option String)
    (value_of : α → Option String) (inner : α) (params : List (String × List String)) :
    ContentLine :=
  ⟨name,
    if (value_type_of inner).getD default_type ≠ default_type then
      replaceParam params "VALUE" ((value_type_of inner).getD default_type)
    else params,
    value_of inner⟩

/-- Counterexample to claim C2 as stated: a RECURRENCE-ID whose concrete
type `DATE-TIME` equals `DEFAULT_TYPE` and whose parameter list carries a
`VALUE=DATE-TIME` parameter from parsing keeps that parameter on emission —
the code inserts/replaces `VALUE` when the types differ but never removes
one when they agree. -/
theorem C2_counterexample :
    (CalDateOrDateTime.dateTime 0 (Tz.Olson "UTC")).value_type = "DATE-TIME" ∧
    (recuridToContentLine
      ⟨CalDateOrDateTime.dateTime 0 (Tz.Olson "UTC"), [("VALUE", ["DATE-TIME"])],
        .This⟩).params = [("VALUE", ["DATE-TIME"])] := by
  constructor
  · rfl
  · rfl

/-- Claim C2, amended: when the concrete value type differs from
`DEFAULT_TYPE`, the emitted parameters carry `VALUE=<concrete type>`
(replacing any existing `VALUE`); when it equals `DEFAULT_TYPE`, the
parameter list is emitted unchanged — in particular a `VALUE` parameter
carried over from parsing is retained, not removed.  Stated for the
generic `property!` emission arm and for the hand-written RECURRENCE-ID
emission (whose parameters are also left unchanged only when no RANGE
rewrite applies). -/
theorem C2_value_param_reinserted :
    (∀ (α : Type) (name dt : String) (vto : α → Option String) (vo : α → Option String)
      (inner : α) (params : List (String × List String)),
      ((vto inner).getD dt ≠ dt →
        getParam (propertyToContentLine name dt vto vo inner params).params "VALUE" =
          some ((vto inner).getD dt)) ∧
      ((vto inner).getD dt = dt →
        (propertyToContentLine name dt vto vo inner params).params = params)) ∧
    (∀ v : IcalRECURIDProperty,
      (v.dt.value_type ≠ "DATE-TIME" →
        getParam (recuridToContentLine v).params "VALUE" = some v.dt.value_type) ∧
      (v.dt.value_type = "DATE-TIME" → v.range = .This →
        (recuridToContentLine v).params = v.params)) := by
  constructor
  · intro α name dt vto vo inner params
    constructor
    · intro hne
      unfold propertyToContentLine
      dsimp only
      rw [if_pos hne]
      exact getParam_replaceParam params "VALUE" ((vto inner).getD dt)
    · intro heq
      unfold propertyToContentLine
      dsimp only
      rw [if_neg (by simp [heq])]
  · intro v
    constructor
    · intro hne
      unfold recuridToContentLine
      dsimp only
      rw [if_pos hne]
      by_cases hr : v.range = .ThisAndFuture
      · rw [if_pos hr]
        have : v.dt.value_type ≠ "RANGE" ∧ ("VALUE" : String) ≠ "RANGE" := by
          cases v.dt <;> simp [CalDateOrDateTime.value_type]
        rw [show getParam (replaceParam (replaceParam v.params "VALUE" v.dt.value_type)
            "RANGE" "THISANDFUTURE") "VALUE" =
            getParam (replaceParam v.params "VALUE" v.dt.value_type) "VALUE" from ?_]
        · exact getParam_replaceParam v.params "VALUE" v.dt.value_type
        · generalize replaceParam v.params "VALUE" v.dt.value_type = ps
          induction ps with
          | nil => simp [replaceParam, getParam, List.find?]
          | cons kv rest ih =>
            by_cases hk : kv.1 = "RANGE"
            · simp [replaceParam, hk, getParam, List.find?]
            · simp only [replaceParam, if_neg hk, getParam, List.find?_cons] at ih ⊢
              cases hkv : (kv.1 == "VALUE") <;> simp_all
      · rw [if_neg hr]
        exact getParam_replaceParam v.params "VALUE" v.dt.value_type
    · intro heq hrange
      unfold recuridToContentLine
      dsimp only
      rw [if_neg (by simp [hrange]), if_neg (by simp [heq])]

/-- Witness for the amended C2: a DATE value under a DATE-TIME default gets
`VALUE=DATE`; a DATE-TIME RECURRENCE-ID keeps its parameters untouched. -/
theorem C2_value_param_reinserted_witness :
    getParam (propertyToContentLine "DTSTART" "DATE-TIME"
      (fun c : CalDateOrDateTime => some c.value_type) (fun c => some c.format)
      (CalDateOrDateTime.date 5) []).params "VALUE" = some "DATE" ∧
    (recuridToContentLine
      ⟨CalDateOrDateTime.dateTime 3 Tz.Local, [("X", ["y"])], .This⟩).params =
      [("X", ["y"])] :=
  ⟨(C2_value_param_reinserted.1 CalDateOrDateTime "DTSTART" "DATE-TIME"
      (fun c => some c.value_type) (fun c => some c.format)
      (CalDateOrDateTime.date 5) []).1 (by decide),
    (C2_value_param_reinserted.2
      ⟨CalDateOrDateTime.dateTime 3 Tz.Local, [("X", ["y"])], .This⟩).2 rfl rfl⟩

/-- A typed property as the `property!` macro produces it: payload plus the
cloned parameter list. -/
structure TypedProp (α : Type) where
  payload : α
  params : List (String × List String)
deriving DecidableEq

/-- The value parsers of the property layer whose sources are not in the
tree, collected as parameters (Modelled from the spec: each is a
`(ContentLine, timezone-map) → Typed` conversion; the timezone map is
irrelevant to every claim and omitted). -/
structure IcalSem where
  parseDT : String → ContentLine → Except ParserError CalDateOrDateTime
  parseDTSTAMP : ContentLine → Except ParserError Int
  parseDURATION : ContentLine → Except ParserError Int
  parseRDATE : ContentLine → Except ParserError (List Int)
  parseEXDATE : ContentLine → Except ParserError (List Int)
  parseRRULE : ContentLine → Except ParserError RRuleU
  validate : RRuleU → Int → Except ParserError RRuleV

/-- `IcalUIDProperty::parse_prop`: the raw value string (infallible). -/
def parseUIDProp (p : ContentLine) : Except ParserError (TypedProp String) :=
  .ok ⟨p.value.getD "", p.params⟩

/-- `IcalDTSTARTProperty::parse_prop` via the abstract value parser
(default type `DATE-TIME`). -/
def parseDTSTARTProp (sem : IcalSem) (p : ContentLine) :
    Except ParserError (TypedProp CalDateOrDateTime) :=
  (sem.parseDT "DATE-TIME" p).map (fun dt => ⟨dt, p.params⟩)

/-- `IcalDUEProperty::parse_prop` via the abstract value parser. -/
def parseDUEProp (sem : IcalSem) (p : ContentLine) :
    Except ParserError (TypedProp CalDateOrDateTime) :=
  (sem.parseDT "DATE-TIME" p).map (fun dt => ⟨dt, p.params⟩)

/-- `IcalDTSTAMPProperty::parse_prop` via the abstract value parser. -/
def parseDTSTAMPProp (sem : IcalSem) (p : ContentLine) :
    Except ParserError (TypedProp Int) :=
  (sem.parseDTSTAMP p).map (fun i => ⟨i, p.params⟩)

/-- `IcalDURATIONProperty::parse_prop` via the abstract value parser. -/
def parseDURATIONProp (sem : IcalSem) (p : ContentLine) :
    Except ParserError (TypedProp Int) :=
  (sem.parseDURATION p).map (fun i => ⟨i, p.params⟩)

/-- `IcalRRULEProperty::parse_prop` via the abstract rule parser. -/
def parseRRULEProp (sem : IcalSem) (p : ContentLine) :
    Except ParserError (TypedProp RRuleU) :=
  (sem.parseRRULE p).map (fun r => ⟨r, p.params⟩)

/-- A verified `IcalTodo` (`src/component/ical/component/todo.rs` lines
20-34); alarms are omitted (`IcalAlarm`'s source is not in the tree and no
claim touches it). -/
structure IcalTodo where
  uid : String
  dtstart : Option (TypedProp CalDateOrDateTime)
  due : Option (TypedProp CalDateOrDateTime)
  duration : Option (TypedProp Int)
  dtstamp : TypedProp Int
  properties : List ContentLine
  rdates : List (List Int)
  rrules : List RRuleV
  exdates : List (List Int)
  exrules : List RRuleV
  recurid : Option IcalRECURIDProperty

/-- `IcalTodoBuilder::build` (`src/component/ical/component/todo.rs` lines
136-202): required UID and DTSTAMP, optional-once DTSTART and
RECURRENCE-ID (checked against DTSTART), mutually exclusive DURATION and
DUE, then the recurrence collections, with RRULE/EXRULE validated against
DTSTART when present. -/
def todoBuild (sem : IcalSem) (props : List ContentLine) : Except ParserError IcalTodo :=
  match safe_get_required parseUIDProp props "UID" with
  | .error e => .error e
  | .ok uidp =>
  match safe_get_required (parseDTSTAMPProp sem) props "DTSTAMP" with
  | .error e => .error e
  | .ok dtstamp =>
  match safe_get_optional (parseDTSTARTProp sem) props "DTSTART" with
  | .error e => .error e
  | .ok dtstart =>
  match safe_get_optional (recuridParseProp (sem.parseDT "DATE-TIME")) props "RECURRENCE-ID" with
  | .error e => .error e
  | .ok recurid =>
  match (match dtstart, recurid with
    | some d, some r => recuridValidateDtstart r d.payload
    | _, _ => .ok ()) with
  | .error e => .error e
  | .ok () =>
  match safe_get_optional (parseDURATIONProp sem) props "DURATION" with
  | .error e => .error e
  | .ok duration =>
  match safe_get_optional (parseDUEProp sem) props "DUE" with
  | .error e => .error e
  | .ok due =>
  if duration.isSome ∧ due.isSome then
    .error (.PropertyConflict "both DUE and DURATION are defined")
  else
  match safe_get_all sem.parseRDATE props "RDATE" with
  | .error e => .error e
  | .ok rdates =>
  match safe_get_all sem.parseEXDATE props "EXDATE" with
  | .error e => .error e
  | .ok exdates =>
  match ((match dtstart with
    | some d =>
      match safe_get_all (parseRRULEProp sem) props "RRULE" with
      | .error e => .error e
      | .ok rrules =>
        match rrules.mapM (fun r => sem.validate r.payload d.payload.utc) with
        | .error e => .error e
        | .ok vrrules =>
          match safe_get_all (parseRRULEProp sem) props "EXRULE" with
          | .error e => .error e
          | .ok exrules =>
            (exrules.mapM (fun r => sem.validate r.payload d.payload.utc)).map
              (fun vexrules => (vrrules, vexrules))
    | none => .ok ([], [])) : Except ParserError (List RRuleV × List RRuleV)) with
  | .error e => .error e
  | .ok (rrules, exrules) =>
    .ok ⟨uidp.payload, dtstart, due, duration, dtstamp, props, rdates, rrules,
      exdates, exrules, recurid⟩

theorem safe_get_optional_two {α : Type} (parse : ContentLine → Except ParserError α)
    (props : List ContentLine) (name : String)
    (h : 2 ≤ (getNamedProperties props name).length) :
    safe_get_optional parse props name =
      .error (.PropertyConflict "Multiple instances of property") := by
  unfold safe_get_optional
  match hg : getNamedProperties props name with
  | [] => rw [hg] at h; simp at h
  | [p] => rw [hg] at h; simp at h
  | p1 :: p2 :: rest => rfl

theorem safe_get_required_none {α : Type} (parse : ContentLine → Except ParserError α)
    (props : List ContentLine) (name : String)
    (h : ∀ p ∈ props, p.name ≠ name) :
    safe_get_required parse props name = .error (.MissingProperty name) := by
  have hg : getNamedProperties props name = [] := by
    unfold getNamedProperties
    rw [List.filter_eq_nil_iff]
    intro p hp
    simp [h p hp]
  unfold safe_get_required safe_get_optional
  rw [hg]

/-- Claim C4: a VTODO whose property list carries both a DUE and a DURATION
fails `build()` with the PropertyConflict error (given that the extraction
steps before the mutual-exclusion check succeed), and consequently no
verified VTODO has both DUE and DURATION present. -/
theorem C4_due_duration_conflict :
    (∀ (sem : IcalSem) (props : List ContentLine) (u : TypedProp String)
      (ds : TypedProp Int) (dtstart : Option (TypedProp CalDateOrDateTime))
      (rid : Option IcalRECURIDProperty) (dur : TypedProp Int)
      (due : TypedProp CalDateOrDateTime),
      safe_get_required parseUIDProp props "UID" = .ok u →
      safe_get_required (parseDTSTAMPProp sem) props "DTSTAMP" = .ok ds →
      safe_get_optional (parseDTSTARTProp sem) props "DTSTART" = .ok dtstart →
      safe_get_optional (recuridParseProp (sem.parseDT "DATE-TIME")) props "RECURRENCE-ID" =
        .ok rid →
      (match dtstart, rid with
        | some d, some r => recuridValidateDtstart r d.payload
        | _, _ => .ok ()) = .ok () →
      safe_get_optional (parseDURATIONProp sem) props "DURATION" = .ok (some dur) →
      safe_get_optional (parseDUEProp sem) props "DUE" = .ok (some due) →
      todoBuild sem props = .error (.PropertyConflict "both DUE and DURATION are defined")) ∧
    (∀ (sem : IcalSem) (props : List ContentLine) (t : IcalTodo),
      todoBuild sem props = .ok t → ¬ (t.due.isSome ∧ t.duration.isSome)) := by
  constructor
  · intro sem props u ds dtstart rid dur due h1 h2 h3 h4 h5 h6 h7
    unfold todoBuild
    rw [h1]
    dsimp only
    rw [h2]
    dsimp only
    rw [h3]
    dsimp only
    rw [h4]
    dsimp only
    rw [h5]
    dsimp only
    rw [h6]
    dsimp only
    rw [h7]
    dsimp only
    rw [if_pos ⟨rfl, rfl⟩]
  · intro sem props t h
    unfold todoBuild at h
    split at h
    · simp at h
    · split at h
      · simp at h
      · split at h
        · simp at h
        · split at h
          · simp at h
          · split at h
            · simp at h
            · split at h
              · simp at h
              · split at h
                · simp at h
                · rename_i duration hopt due hdue
                  split at h
                  · simp at h
                  · rename_i hcond
                    split at h
                    · simp at h
                    · split at h
                      · simp at h
                      · split at h
                        · simp at h
                        · simp only [Except.ok.injEq] at h
                          subst h
                          intro hcontra
                          simp only at hcontra
                          exact hcond ⟨hcontra.2, hcontra.1⟩

instance {ε α : Type} [DecidableEq ε] [DecidableEq α] : DecidableEq (Except ε α) := fun a b =>
  match a, b with
  | .error e1, .error e2 =>
    if h : e1 = e2 then .isTrue (by rw [h]) else .isFalse (by intro hc; cases hc; exact h rfl)
  | .ok v1, .ok v2 =>
    if h : v1 = v2 then .isTrue (by rw [h]) else .isFalse (by intro hc; cases hc; exact h rfl)
  | .error _, .ok _ => .isFalse (by intro hc; cases hc)
  | .ok _, .error _ => .isFalse (by intro hc; cases hc)

/-- A concrete instantiation of the abstract value parsers, used by the
witnesses: every value parses to a fixed UTC date-time, durations to an
hour, rule validation succeeds and keeps UNTIL. -/
def trivSem : IcalSem where
  parseDT := fun _ _ => .ok (.dateTime 0 (.Olson "UTC"))
  parseDTSTAMP := fun _ => .ok 0
  parseDURATION := fun _ => .ok 60
  parseRDATE := fun _ => .ok []
  parseEXDATE := fun _ => .ok []
  parseRRULE := fun _ => .ok ⟨none⟩
  validate := fun r _ => .ok ⟨r.get_until⟩

/-- Witness for C4: a VTODO with UID, DTSTAMP, DURATION and DUE fails with
the DUE/DURATION PropertyConflict. -/
theorem C4_due_duration_conflict_witness :
    todoBuild trivSem
      [⟨"UID", [], some "u"⟩, ⟨"DTSTAMP", [], some "s"⟩,
        ⟨"DURATION", [], some "PT1H"⟩, ⟨"DUE", [], some "20240101"⟩] =
      .error (.PropertyConflict "both DUE and DURATION are defined") :=
  C4_due_duration_conflict.1 trivSem
    [⟨"UID", [], some "u"⟩, ⟨"DTSTAMP", [], some "s"⟩,
      ⟨"DURATION", [], some "PT1H"⟩, ⟨"DUE", [], some "20240101"⟩]
    ⟨"u", []⟩ ⟨0, []⟩ none none ⟨60, []⟩ ⟨.dateTime 0 (.Olson "UTC"), []⟩
    (by decide) (by decide) (by decide) (by decide) (by decide) (by decide) (by decide)

/-- Claim C5: on every verified component with both DTSTART and
RECURRENCE-ID, the RECURRENCE-ID's value type (DATE vs DATE-TIME) and
timezone locality (local vs zoned) equal DTSTART's; and whenever either
differs on the parsed values, `build()` fails with
DtstartNotMatchingRecurId.  Stated on the VTODO builder, the component
builder with this check present in the tree. -/
theorem C5_recurid_matches_dtstart :
    (∀ (sem : IcalSem) (props : List ContentLine) (t : IcalTodo)
      (d : TypedProp CalDateOrDateTime) (r : IcalRECURIDProperty),
      todoBuild sem props = .ok t → t.dtstart = some d → t.recurid = some r →
      r.dt.is_date = d.payload.is_date ∧
        r.dt.timezone.is_local = d.payload.timezone.is_local) ∧
    (∀ (sem : IcalSem) (props : List ContentLine) (u : TypedProp String)
      (ds : TypedProp Int) (d : TypedProp CalDateOrDateTime) (r : IcalRECURIDProperty),
      safe_get_required parseUIDProp props "UID" = .ok u →
      safe_get_required (parseDTSTAMPProp sem) props "DTSTAMP" = .ok ds →
      safe_get_optional (parseDTSTARTProp sem) props "DTSTART" = .ok (some d) →
      safe_get_optional (recuridParseProp (sem.parseDT "DATE-TIME")) props "RECURRENCE-ID" =
        .ok (some r) →
      (r.dt.is_date ≠ d.payload.is_date ∨
        r.dt.timezone.is_local ≠ d.payload.timezone.is_local) →
      todoBuild sem props = .error .DtstartNotMatchingRecurId) := by
  constructor
  · intro sem props t d r h hd hr
    unfold todoBuild at h
    split at h
    · simp at h
    · rename_i u hu
      split at h
      · simp at h
      · rename_i ds2 hds
        split at h
        · simp at h
        · rename_i dtst hdtst
          split at h
          · simp at h
          · rename_i rid hrid
            split at h
            · simp at h
            · rename_i hval
              split at h
              · simp at h
              · rename_i dur hdur
                split at h
                · simp at h
                · rename_i due2 hdue
                  split at h
                  · simp at h
                  · rename_i hcond
                    split at h
                    · simp at h
                    · rename_i rd hrd
                      split at h
                      · simp at h
                      · rename_i xd hxd
                        split at h
                        · simp at h
                        · rename_i rra rrb hrr
                          simp only [Except.ok.injEq] at h
                          subst h
                          simp only at hd hr
                          subst hd
                          subst hr
                          dsimp only at hval
                          unfold recuridValidateDtstart at hval
                          by_cases hc2 : (r.dt.is_date ≠ d.payload.is_date ∨
                              r.dt.timezone.is_local ≠ d.payload.timezone.is_local)
                          · rw [if_pos hc2] at hval
                            simp at hval
                          · push_neg at hc2
                            exact hc2
  · intro sem props u ds d r h1 h2 h3 h4 hne
    unfold todoBuild
    rw [h1]
    dsimp only
    rw [h2]
    dsimp only
    rw [h3]
    dsimp only
    rw [h4]
    dsimp only
    unfold recuridValidateDtstart
    rw [if_pos hne]

/-- Witness for C5: a DATE RECURRENCE-ID against a DATE-TIME DTSTART (S4)
fails with DtstartNotMatchingRecurId. -/
theorem C5_recurid_matches_dtstart_witness :
    todoBuild
      { trivSem with
        parseDT := fun _ p =>
          if p.name = "RECURRENCE-ID" then .ok (.date 19700101)
          else .ok (.dateTime 0 (.Olson "UTC")) }
      [⟨"UID", [], some "u"⟩, ⟨"DTSTAMP", [], some "s"⟩,
        ⟨"DTSTART", [], some "19700329T020000Z"⟩,
        ⟨"RECURRENCE-ID", [], some "19700329"⟩] =
      .error .DtstartNotMatchingRecurId :=
  C5_recurid_matches_dtstart.2
    { trivSem with
      parseDT := fun _ p =>
        if p.name = "RECURRENCE-ID" then .ok (.date 19700101)
        else .ok (.dateTime 0 (.Olson "UTC")) }
    [⟨"UID", [], some "u"⟩, ⟨"DTSTAMP", [], some "s"⟩,
      ⟨"DTSTART", [], some "19700329T020000Z"⟩,
      ⟨"RECURRENCE-ID", [], some "19700329"⟩]
    ⟨"u", []⟩ ⟨0, []⟩ ⟨.dateTime 0 (.Olson "UTC"), []⟩ ⟨.date 19700101, [], .This⟩
    (by decide) (by decide) (by decide) (by decide) (by decide)

/-- Claim C8: for the cardinality machinery shared by every component
builder, a missing required property fails `build()` with MissingProperty
naming that property, and a second instance of an optional-once property
fails with PropertyConflict; instantiated on the VTODO builder for its
required UID and optional-once DTSTART. -/
theorem C8_cardinality :
    (∀ (α : Type) (parse : ContentLine → Except ParserError α) (props : List ContentLine)
      (name : String), (∀ p ∈ props, p.name ≠ name) →
      safe_get_required parse props name = .error (.MissingProperty name)) ∧
    (∀ (α : Type) (parse : ContentLine → Except ParserError α) (props : List ContentLine)
      (name : String), 2 ≤ (getNamedProperties props name).length →
      safe_get_optional parse props name =
        .error (.PropertyConflict "Multiple instances of property")) ∧
    (∀ (sem : IcalSem) (props : List ContentLine), (∀ p ∈ props, p.name ≠ "UID") →
      todoBuild sem props = .error (.MissingProperty "UID")) ∧
    (∀ (sem : IcalSem) (props : List ContentLine) (u : TypedProp String) (ds : TypedProp Int),
      safe_get_required parseUIDProp props "UID" = .ok u →
      safe_get_required (parseDTSTAMPProp sem) props "DTSTAMP" = .ok ds →
      2 ≤ (getNamedProperties props "DTSTART").length →
      todoBuild sem props =
        .error (.PropertyConflict "Multiple instances of property")) := by
  refine ⟨fun α parse props name h => safe_get_required_none parse props name h,
    fun α parse props name h => safe_get_optional_two parse props name h, ?_, ?_⟩
  · intro sem props h
    unfold todoBuild
    rw [safe_get_required_none parseUIDProp props "UID" h]
  · intro sem props u ds h1 h2 hcount
    unfold todoBuild
    rw [h1]
    dsimp only
    rw [h2]
    dsimp only
    rw [safe_get_optional_two (parseDTSTARTProp sem) props "DTSTART" hcount]

/-- Witness for C8: a VTODO without UID fails with MissingProperty "UID";
one with two DTSTARTs fails with the duplicate-property conflict. -/
theorem C8_cardinality_witness :
    todoBuild trivSem [⟨"DTSTAMP", [], some "s"⟩] = .error (.MissingProperty "UID") ∧
    todoBuild trivSem
      [⟨"UID", [], some "u"⟩, ⟨"DTSTAMP", [], some "s"⟩,
        ⟨"DTSTART", [], some "a"⟩, ⟨"DTSTART", [], some "b"⟩] =
      .error (.PropertyConflict "Multiple instances of property") :=
  ⟨C8_cardinality.2.2.1 trivSem [⟨"DTSTAMP", [], some "s"⟩] (by decide),
    C8_cardinality.2.2.2 trivSem
      [⟨"UID", [], some "u"⟩, ⟨"DTSTAMP", [], some "s"⟩,
        ⟨"DTSTART", [], some "a"⟩, ⟨"DTSTART", [], some "b"⟩]
      ⟨"u", []⟩ ⟨0, []⟩ (by decide) (by decide) (by decide)⟩

/-- `IcalTimeZoneTransitionType` (`src/component/ical/component/timezone.rs`). -/
inductive IcalTimeZoneTransitionType where
  | STANDARD
  | DAYLIGHT
deriving DecidableEq

/-- `IcalTimeZoneTransition` (`src/component/ical/component/timezone.rs`
lines 181-186): kind, raw properties, and the typed DTSTART. -/
structure IcalTimeZoneTransition where
  transition : IcalTimeZoneTransitionType
  properties : List ContentLine
  dtstart : TypedProp CalDateOrDateTime
deriving DecidableEq

/-- `IcalTimeZone` (`src/component/ical/component/timezone.rs` lines
18-22); the `VERIFIED` const generic distinguishes builder and verified
form, both carrying the same fields. -/
structure IcalTimeZone where
  properties : List ContentLine
  transitions : List IcalTimeZoneTransition
deriving DecidableEq

/-- `Component::get_property`: first property with the given name. -/
def get_property (props : List ContentLine) (name : String) : Option ContentLine :=
  props.find? (fun p => p.name == name)

/-- `IcalTimeZone<false>::build` (`src/component/ical/component/timezone.rs`
lines 145-167): requires only that a property named TZID is present. -/
def tzBuild (properties : List ContentLine) (transitions : List IcalTimeZoneTransition) :
    Except ParserError IcalTimeZone :=
  match get_property properties "TZID" with
  | none => .error (.MissingProperty "TZID")
  | some _ => .ok ⟨properties, transitions⟩

/-- Counterexample to claim C6 as stated: a VTIMEZONE whose TZID property
is present but has an empty value is accepted by `build()` — the code
checks only `get_property("TZID").is_none()` and never looks at the
value. -/
theorem C6_counterexample :
    tzBuild [⟨"TZID", [], none⟩] [] = .ok ⟨[⟨"TZID", [], none⟩], []⟩ := by
  rfl

/-- Claim C6, amended: `build()` on an unverified VTIMEZONE fails with
`MissingProperty "TZID"` exactly when no property named TZID is present;
when one is present it succeeds regardless of its value (in particular an
empty value is accepted). -/
theorem C6_tzid_presence (properties : List ContentLine)
    (transitions : List IcalTimeZoneTransition) :
    (tzBuild properties transitions = .error (.MissingProperty "TZID") ↔
      ∀ p ∈ properties, p.name ≠ "TZID") ∧
    ((∃ p ∈ properties, p.name = "TZID") →
      tzBuild properties transitions = .ok ⟨properties, transitions⟩) := by
  constructor
  · constructor
    · intro h p hp hname
      unfold tzBuild get_property at h
      cases hf : properties.find? (fun p => p.name == "TZID") with
      | none =>
        rw [List.find?_eq_none] at hf
        exact hf p hp (by simp [hname])
      | some q => rw [hf] at h; simp at h
    · intro h
      unfold tzBuild get_property
      rw [List.find?_eq_none.mpr (fun p hp => by simp [h p hp])]
  · intro ⟨p, hp, hname⟩
    unfold tzBuild get_property
    cases hf : properties.find? (fun p => p.name == "TZID") with
    | none =>
      rw [List.find?_eq_none] at hf
      exact absurd (by simp [hname]) (not_not.mpr (hf p hp))
    | some q => rfl

/-- Witness for the amended C6: no TZID fails with MissingProperty "TZID";
a TZID with empty value builds. -/
theorem C6_tzid_presence_witness :
    tzBuild [⟨"X-LIC-LOCATION", [], some "Europe/Berlin"⟩] [] =
      .error (.MissingProperty "TZID") ∧
    tzBuild [⟨"TZID", [], some ""⟩] [] = .ok ⟨[⟨"TZID", [], some ""⟩], []⟩ :=
  ⟨(C6_tzid_presence [⟨"X-LIC-LOCATION", [], some "Europe/Berlin"⟩] []).1.mpr (by decide),
    (C6_tzid_presence [⟨"TZID", [], some ""⟩] []).2 ⟨⟨"TZID", [], some ""⟩, by decide, rfl⟩⟩

theorem int_min?_le (l : List Int) (m : Int) (h : l.min? = some m) : ∀ v ∈ l, m ≤ v := by
  induction l generalizing m with
  | nil => simp [List.min?] at h
  | cons a as ih =>
    rw [List.min?_cons] at h
    cases has : as.min? with
    | none =>
      rw [has] at h
      simp at h
      subst h
      intro v hv
      rcases List.mem_cons.mp hv with rfl | hv
      · exact le_refl v
      · rw [List.min?_eq_none_iff] at has
        subst has
        simp at hv
    | some m2 =>
      rw [has] at h
      simp at h
      subst h
      intro v hv
      rcases List.mem_cons.mp hv with rfl | hv
      · exact min_le_left _ _
      · exact le_trans (min_le_right _ _) (ih m2 has v hv)

/-- Result of `IcalTimeZoneTransition::truncate`: `crash` models the
`expect("validated in build")` panics (unreachable for transitions that
passed `build()`), `deleted` the `None` return, `kept` the rewritten
transition. -/
inductive TruncResult (α : Type) where
  | crash
  | deleted
  | kept (t : α)
deriving DecidableEq

/-- The property-collection loop of `IcalTimeZoneTransition::truncate`
(`src/component/ical/component/timezone.rs` lines 286-311): walk the
properties in order, parsing RRULEs (validation failure deletes the whole
transition via `?`), RDATEs (empty value lists are skipped entirely; the
minimum is recorded), remembering the last DTSTART line, collecting the
rest. -/
def truncCollect (sem : IcalSem) (dtstart : Int) :
    List ContentLine → List (ContentLine × RRuleV) → List (ContentLine × Int) →
    List ContentLine → ContentLine →
    TruncResult (List (ContentLine × RRuleV) × List (ContentLine × Int) ×
      List ContentLine × ContentLine)
  | [], rrules, rdates, others, dtstartProp => .kept (rrules, rdates, others, dtstartProp)
  | p :: rest, rrules, rdates, others, dtstartProp =>
    if p.name = "RRULE" then
      match sem.parseRRULE p with
      | .error _ => .crash
      | .ok r =>
        match sem.validate r dtstart with
        | .error _ => .deleted
        | .ok v => truncCollect sem dtstart rest (rrules ++ [(p, v)]) rdates others dtstartProp
    else if p.name = "RDATE" then
      match sem.parseRDATE p with
      | .error _ => .crash
      | .ok vals =>
        match vals.min? with
        | none => truncCollect sem dtstart rest rrules rdates others dtstartProp
        | some m => truncCollect sem dtstart rest rrules (rdates ++ [(p, m)]) others dtstartProp
    else if p.name = "DTSTART" then
      truncCollect sem dtstart rest rrules rdates others p
    else truncCollect sem dtstart rest rrules rdates (others ++ [p]) dtstartProp

/-- The RRULE retention filter (lines 313-320): drop a rule exactly when
its UNTIL exists and is strictly before the cut-off. -/
def truncKeepRRules (start : Int) (rrules : List (ContentLine × RRuleV)) :
    List (ContentLine × RRuleV) :=
  rrules.filter (fun pr => match pr.2.get_until with
    | some u => decide (¬ u < start)
    | none => true)

/-- The RDATE retention filter (line 321): keep a property exactly when its
minimum value is at or after the cut-off. -/
def truncKeepRDates (start : Int) (rdates : List (ContentLine × Int)) :
    List (ContentLine × Int) :=
  rdates.filter (fun pm => decide (start ≤ pm.2))

/-- `IcalTimeZoneTransition::truncate` (`src/component/ical/component/timezone.rs`
lines 279-337): collect, filter, delete when both sets are empty and
DTSTART is before the cut-off, otherwise rebuild the property list as
DTSTART, kept RDATEs, kept RRULEs, everything else.  The value parsers are
the abstract property semantics; instants are `Int` UTC timestamps and the
ordering of `CalDateOrDateTime` is modelled as the ordering of those
instants. -/
def truncate (sem : IcalSem) (t : IcalTimeZoneTransition) (start : Int) :
    TruncResult IcalTimeZoneTransition :=
  match truncCollect sem t.dtstart.payload.utc t.properties [] [] [] default with
  | .crash => .crash
  | .deleted => .deleted
  | .kept (rrules, rdates, others, dtstartProp) =>
    if truncKeepRRules start rrules = [] ∧ truncKeepRDates start rdates = [] ∧
        t.dtstart.payload.utc < start then
      .deleted
    else
      .kept ⟨t.transition,
        dtstartProp :: ((truncKeepRDates start rdates).map (fun pm => pm.1) ++
          (truncKeepRRules start rrules).map (fun pr => pr.1) ++ others),
        t.dtstart⟩

/-- `IcalTimeZone::truncate` (`src/component/ical/component/timezone.rs`
lines 62-71): truncate every transition, keeping those not deleted; a
`crash` of any transition is the whole call's `crash`. -/
def tzTruncate (sem : IcalSem) (tz : IcalTimeZone) (start : Int) :
    TruncResult IcalTimeZone :=
  match tz.transitions.mapM (fun t =>
    match truncate sem t start with
    | .crash => none
    | .deleted => some none
    | .kept t2 => some (some t2)) with
  | none => .crash
  | some results => .kept ⟨tz.properties, results.reduceOption⟩

theorem truncCollect_spec (sem : IcalSem) (dt : Int) : ∀ (props : List ContentLine)
    (rrA : List (ContentLine × RRuleV)) (rdA : List (ContentLine × Int))
    (oA : List ContentLine) (dpA : ContentLine)
    (rr : List (ContentLine × RRuleV)) (rd : List (ContentLine × Int))
    (o : List ContentLine) (dp : ContentLine),
    truncCollect sem dt props rrA rdA oA dpA = .kept (rr, rd, o, dp) →
    (∀ pv ∈ rr, pv ∈ rrA ∨ (pv.1.name = "RRULE" ∧
      ∃ r, sem.parseRRULE pv.1 = .ok r ∧ sem.validate r dt = .ok pv.2)) ∧
    (∀ pm ∈ rd, pm ∈ rdA ∨ (pm.1.name = "RDATE" ∧
      ∃ vals, sem.parseRDATE pm.1 = .ok vals ∧ vals.min? = some pm.2)) ∧
    (∀ q ∈ o, q ∈ oA ∨ (q.name ≠ "RRULE" ∧ q.name ≠ "RDATE" ∧ q.name ≠ "DTSTART")) ∧
    (dp = dpA ∨ dp.name = "DTSTART") := by
  intro props
  induction props with
  | nil =>
    intro rrA rdA oA dpA rr rd o dp h
    rw [truncCollect] at h
    simp only [TruncResult.kept.injEq, Prod.mk.injEq] at h
    obtain ⟨rfl, rfl, rfl, rfl⟩ := h
    exact ⟨fun pv hpv => Or.inl hpv, fun pm hpm => Or.inl hpm,
      fun q hq => Or.inl hq, Or.inl rfl⟩
  | cons p rest ih =>
    intro rrA rdA oA dpA rr rd o dp h
    rw [truncCollect] at h
    by_cases hrr : p.name = "RRULE"
    · rw [if_pos hrr] at h
      cases hp : sem.parseRRULE p with
      | error e => rw [hp] at h; simp at h
      | ok r =>
        rw [hp] at h
        dsimp only at h
        cases hv : sem.validate r dt with
        | error e => rw [hv] at h; simp at h
        | ok v =>
          rw [hv] at h
          dsimp only at h
          obtain ⟨s1, s2, s3, s4⟩ := ih (rrA ++ [(p, v)]) rdA oA dpA rr rd o dp h
          refine ⟨?_, s2, s3, s4⟩
          intro pv hpv
          rcases s1 pv hpv with hmem | hcond
          · rcases List.mem_append.mp hmem with hmem | hmem
            · exact Or.inl hmem
            · simp at hmem
              subst hmem
              exact Or.inr ⟨hrr, r, hp, hv⟩
          · exact Or.inr hcond
    · rw [if_neg hrr] at h
      by_cases hrd : p.name = "RDATE"
      · rw [if_pos hrd] at h
        cases hp : sem.parseRDATE p with
        | error e => rw [hp] at h; simp at h
        | ok vals =>
          rw [hp] at h
          dsimp only at h
          cases hm : vals.min? with
          | none =>
            rw [hm] at h
            dsimp only at h
            exact ih rrA rdA oA dpA rr rd o dp h
          | some m =>
            rw [hm] at h
            dsimp only at h
            obtain ⟨s1, s2, s3, s4⟩ := ih rrA (rdA ++ [(p, m)]) oA dpA rr rd o dp h
            refine ⟨s1, ?_, s3, s4⟩
            intro pm hpm
            rcases s2 pm hpm with hmem | hcond
            · rcases List.mem_append.mp hmem with hmem | hmem
              · exact Or.inl hmem
              · simp at hmem
                subst hmem
                exact Or.inr ⟨hrd, vals, hp, hm⟩
            · exact Or.inr hcond
      · rw [if_neg hrd] at h
        by_cases hds : p.name = "DTSTART"
        · rw [if_pos hds] at h
          obtain ⟨s1, s2, s3, s4⟩ := ih rrA rdA oA p rr rd o dp h
          refine ⟨s1, s2, s3, ?_⟩
          rcases s4 with rfl | hname
          · exact Or.inr hds
          · exact Or.inr hname
        · rw [if_neg hds] at h
          obtain ⟨s1, s2, s3, s4⟩ := ih rrA rdA (oA ++ [p]) dpA rr rd o dp h
          refine ⟨s1, s2, ?_, s4⟩
          intro q hq
          rcases s3 q hq with hmem | hcond
          · rcases List.mem_append.mp hmem with hmem | hmem
            · exact Or.inl hmem
            · simp at hmem
              subst hmem
              exact Or.inr ⟨hrr, hrd, hds⟩
          · exact Or.inr hcond

/-- Claim C1: truncating a verified VTIMEZONE transition at cut-off `start`
drops exactly the RDATE properties whose values lie strictly before the
cut-off and the RRULEs whose UNTIL lies strictly before it: in a kept
transition no remaining RDATE value is `< start` and no remaining RRULE's
UNTIL is `< start`; and when the transition is kept even though its DTSTART
is before the cut-off, some RDATE or RRULE survived — equivalently, when
both filtered sets are empty and DTSTART is before the cut-off the
transition is deleted. -/
theorem C1_transition_truncate (sem : IcalSem) (t : IcalTimeZoneTransition) (start : Int)
    (t' : IcalTimeZoneTransition) (h : truncate sem t start = .kept t') :
    (∀ p ∈ t'.properties, p.name = "RDATE" → ∀ vals, sem.parseRDATE p = .ok vals →
      ∀ v ∈ vals, ¬ v < start) ∧
    (∀ p ∈ t'.properties, p.name = "RRULE" → ∀ r, sem.parseRRULE p = .ok r →
      ∀ vr, sem.validate r t.dtstart.payload.utc = .ok vr →
      ∀ u, vr.get_until = some u → ¬ u < start) ∧
    (t.dtstart.payload.utc < start →
      ∃ p ∈ t'.properties, p.name = "RDATE" ∨ p.name = "RRULE") := by
  unfold truncate at h
  split at h
  · simp at h
  · simp at h
  · rename_i rr rd o dpp hcollect
    split at h
    · simp at h
    · rename_i hcond
      simp only [TruncResult.kept.injEq] at h
      subst h
      obtain ⟨s1, s2, s3, s4⟩ := truncCollect_spec sem t.dtstart.payload.utc t.properties
        [] [] [] default rr rd o dpp hcollect
      have hdpname : dpp.name ≠ "RDATE" ∧ dpp.name ≠ "RRULE" := by
        rcases s4 with rfl | hname
        · exact ⟨by decide, by decide⟩
        · rw [hname]
          exact ⟨by decide, by decide⟩
      refine ⟨?_, ?_, ?_⟩
      · intro p hp hname vals hvals v hv
        simp only at hp
        rcases List.mem_cons.mp hp with rfl | hp
        · exact absurd hname hdpname.1
        · rcases List.mem_append.mp hp with hp | hp
          · rcases List.mem_append.mp hp with hp | hp
            · obtain ⟨pm, hpm, rfl⟩ := List.mem_map.mp hp
              have hkeep := List.of_mem_filter hpm
              have hpmrd := List.mem_of_mem_filter hpm
              rcases s2 pm hpmrd with hfalse | ⟨-, vals0, hv0, hm0⟩
              · simp at hfalse
              · rw [hvals] at hv0
                simp only [Except.ok.injEq] at hv0
                subst hv0
                have hle := int_min?_le vals pm.2 hm0 v hv
                simp only [decide_eq_true_eq] at hkeep
                omega
            · obtain ⟨pr, hpr, rfl⟩ := List.mem_map.mp hp
              have hprr := List.mem_of_mem_filter hpr
              rcases s1 pr hprr with hfalse | ⟨hnamerr, -⟩
              · simp at hfalse
              · rw [hname] at hnamerr
                simp at hnamerr
          · rcases s3 p hp with hfalse | ⟨-, hnotrd, -⟩
            · simp at hfalse
            · exact absurd hname hnotrd
      · intro p hp hname r hr vr hvr u hu
        simp only at hp
        rcases List.mem_cons.mp hp with rfl | hp
        · exact absurd hname hdpname.2
        · rcases List.mem_append.mp hp with hp | hp
          · rcases List.mem_append.mp hp with hp | hp
            · obtain ⟨pm, hpm, rfl⟩ := List.mem_map.mp hp
              have hpmrd := List.mem_of_mem_filter hpm
              rcases s2 pm hpmrd with hfalse | ⟨hnamerd, -⟩
              · simp at hfalse
              · rw [hname] at hnamerd
                simp at hnamerd
            · obtain ⟨pr, hpr, rfl⟩ := List.mem_map.mp hp
              have hkeep := List.of_mem_filter hpr
              have hprr := List.mem_of_mem_filter hpr
              rcases s1 pr hprr with hfalse | ⟨-, r0, hr0, hvr0⟩
              · simp at hfalse
              · rw [hr] at hr0
                simp only [Except.ok.injEq] at hr0
                subst hr0
                rw [hvr] at hvr0
                simp only [Except.ok.injEq] at hvr0
                subst hvr0
                rw [hu] at hkeep
                simp only [decide_eq_true_eq] at hkeep
                exact hkeep
          · rcases s3 p hp with hfalse | ⟨hnotrr, -, -⟩
            · simp at hfalse
            · exact absurd hname hnotrr
      · intro hlt
        have : ¬ (truncKeepRRules start rr = [] ∧ truncKeepRDates start rd = []) := by
          intro ⟨ha, hb⟩
          exact hcond ⟨ha, hb, hlt⟩
        rcases Classical.not_and_iff_or_not_not.mp this with hne | hne
        · obtain ⟨pr, hpr⟩ := List.exists_mem_of_ne_nil _ hne
          have hprr := List.mem_of_mem_filter hpr
          rcases s1 pr hprr with hfalse | ⟨hnamerr, -⟩
          · simp at hfalse
          · exact ⟨pr.1, by
              simp only
              exact List.mem_cons_of_mem _ (List.mem_append.mpr (Or.inl
                (List.mem_append.mpr (Or.inr (List.mem_map_of_mem _ hpr))))),
              Or.inr hnamerr⟩
        · obtain ⟨pm, hpm⟩ := List.exists_mem_of_ne_nil _ hne
          have hpmrd := List.mem_of_mem_filter hpm
          rcases s2 pm hpmrd with hfalse | ⟨hnamerd, -⟩
          · simp at hfalse
          · exact ⟨pm.1, by
              simp only
              exact List.mem_cons_of_mem _ (List.mem_append.mpr (Or.inl
                (List.mem_append.mpr (Or.inl (List.mem_map_of_mem _ hpm))))),
              Or.inl hnamerd⟩

/-- Witness for C1: a transition with one RDATE whose value 5 is at or
after the cut-off 3 is kept, and the theorem yields that the surviving
value is not before the cut-off. -/
theorem C1_transition_truncate_witness : ¬ (5 : Int) < 3 :=
  (C1_transition_truncate { trivSem with parseRDATE := fun _ => .ok [5] }
    ⟨.STANDARD, [⟨"RDATE", [], some "20240101"⟩], ⟨.dateTime 0 (.Olson "UTC"), []⟩⟩ 3
    ⟨.STANDARD, [⟨"", [], none⟩, ⟨"RDATE", [], some "20240101"⟩],
      ⟨.dateTime 0 (.Olson "UTC"), []⟩⟩
    (by decide)).1
    ⟨"RDATE", [], some "20240101"⟩ (by decide) rfl [5] rfl 5 (by decide)

theorem truncCollect_deleted (sem : IcalSem) (dt : Int) : ∀ (props : List ContentLine)
    (rrA : List (ContentLine × RRuleV)) (rdA : List (ContentLine × Int))
    (oA : List ContentLine) (dpA : ContentLine),
    (∀ p ∈ props, (p.name = "RRULE" → ∃ r, sem.parseRRULE p = .ok r) ∧
      (p.name = "RDATE" → ∃ vals, sem.parseRDATE p = .ok vals)) →
    (∃ p ∈ props, p.name = "RRULE" ∧ ∀ r, sem.parseRRULE p = .ok r →
      ∃ e, sem.validate r dt = .error e) →
    truncCollect sem dt props rrA rdA oA dpA = .deleted := by
  intro props
  induction props with
  | nil =>
    intro rrA rdA oA dpA hparse hbad
    obtain ⟨p, hp, -⟩ := hbad
    simp at hp
  | cons p rest ih =>
    intro rrA rdA oA dpA hparse hbad
    rw [truncCollect]
    by_cases hrr : p.name = "RRULE"
    · rw [if_pos hrr]
      obtain ⟨r, hr⟩ := (hparse p (by simp)).1 hrr
      rw [hr]
      dsimp only
      cases hv : sem.validate r dt with
      | error e => rfl
      | ok v =>
        obtain ⟨q, hq, hqrr, hqbad⟩ := hbad
        rcases List.mem_cons.mp hq with rfl | hq
        · obtain ⟨e, he⟩ := hqbad r hr
          rw [hv] at he
          simp at he
        · exact ih _ _ _ _ (fun x hx => hparse x (List.mem_cons_of_mem p hx))
            ⟨q, hq, hqrr, hqbad⟩
    · rw [if_neg hrr]
      have hbadrest : ∃ q ∈ rest, q.name = "RRULE" ∧ ∀ r, sem.parseRRULE q = .ok r →
          ∃ e, sem.validate r dt = .error e := by
        obtain ⟨q, hq, hqrr, hqbad⟩ := hbad
        rcases List.mem_cons.mp hq with rfl | hq
        · exact absurd hqrr hrr
        · exact ⟨q, hq, hqrr, hqbad⟩
      have hparserest := fun x hx => hparse x (List.mem_cons_of_mem p hx)
      by_cases hrd : p.name = "RDATE"
      · rw [if_pos hrd]
        obtain ⟨vals, hvals⟩ := (hparse p (by simp)).2 hrd
        rw [hvals]
        dsimp only
        cases hm : vals.min? with
        | none => exact ih _ _ _ _ hparserest hbadrest
        | some m => exact ih _ _ _ _ hparserest hbadrest
      · rw [if_neg hrd]
        by_cases hds : p.name = "DTSTART"
        · rw [if_pos hds]
          exact ih _ _ _ _ hparserest hbadrest
        · rw [if_neg hds]
          exact ih _ _ _ _ hparserest hbadrest

/-- Claim C10: if a verified transition carries an RRULE property that
fails validation against the transition's DTSTART, `truncate` deletes the
whole transition (returns nothing) for every cut-off, rather than dropping
only the offending rule.  The parse hypotheses express that the transition
passed `build()` (its RRULE/RDATE properties parse). -/
theorem C10_invalid_rrule_deletes (sem : IcalSem) (t : IcalTimeZoneTransition) (start : Int)
    (hparse : ∀ p ∈ t.properties, (p.name = "RRULE" → ∃ r, sem.parseRRULE p = .ok r) ∧
      (p.name = "RDATE" → ∃ vals, sem.parseRDATE p = .ok vals))
    (hbad : ∃ p ∈ t.properties, p.name = "RRULE" ∧ ∀ r, sem.parseRRULE p = .ok r →
      ∃ e, sem.validate r t.dtstart.payload.utc = .error e) :
    truncate sem t start = .deleted := by
  unfold truncate
  rw [truncCollect_deleted sem t.dtstart.payload.utc t.properties [] [] [] default
    hparse hbad]

/-- Witness for C10: with a semantics whose validation always fails, a
transition holding one RRULE is deleted wholesale. -/
theorem C10_invalid_rrule_deletes_witness :
    truncate { trivSem with validate := fun _ _ => .error .RRule }
      ⟨.STANDARD, [⟨"RRULE", [], some "FREQ=YEARLY"⟩], ⟨.dateTime 0 (.Olson "UTC"), []⟩⟩ 0 =
      .deleted :=
  C10_invalid_rrule_deletes { trivSem with validate := fun _ _ => .error .RRule }
    ⟨.STANDARD, [⟨"RRULE", [], some "FREQ=YEARLY"⟩], ⟨.dateTime 0 (.Olson "UTC"), []⟩⟩ 0
    (by
      intro p hp
      simp at hp
      subst hp
      exact ⟨fun _ => ⟨⟨none⟩, rfl⟩, fun hn => by simp at hn⟩)
    ⟨⟨"RRULE", [], some "FREQ=YEARLY"⟩, by simp, rfl, fun r hr => ⟨.RRule, rfl⟩⟩
